import Mathlib

/-!
Verification development for the albatross ledger and consensus core.

The Rust sources under `primitives/account` (the `Account` sum type and its
dispatchers), `primitives/block` (the micro-block data model), the test
suites, and the genesis builder are embedded shallowly below.  Components of
the repository that are only referenced from those files (the `Accounts`
Merkle-ized ledger engine, the `Coin` checked arithmetic, the blockchain
push pipeline, fork-proof verification and validator selection) are modelled
from the specification; each such definition carries a doc comment starting
with `Modelled from the spec:`.
-/

namespace Albatross

/-- Modelled from the spec: the `Coin` type of `nimiq-primitives` is not part
of the sources; the spec requires `balance ≥ 0` enforced via checked
arithmetic, with `InvalidCoinValue` on overflow of the coin range.  We model
a coin value as a `Nat` and the coin range by its maximum representable
value (Javascript safe-integer bound used by the implementation family). -/
def COIN_MAX : Nat := 9007199254740991

/-- Modelled from the spec: checked addition on coins, `none` on overflow of
the coin range. -/
def Coin.checked_add (a b : Nat) : Option Nat :=
  if a + b ≤ COIN_MAX then some (a + b) else none

/-- Modelled from the spec: checked subtraction on coins, `none` when the
subtrahend exceeds the minuend (a balance can never go below zero). -/
def Coin.checked_sub (a b : Nat) : Option Nat :=
  if b ≤ a then some (a - b) else none

/-- The `AccountError` enumeration, from the spec's error-handling design and
the variants used by `account.rs`. -/
inductive AccountError where
  | InsufficientFunds (balance needed : Nat)
  | InvalidCoinValue
  | InvalidForSender
  | InvalidForRecipient
  | NonExistentAddress (address : Nat)
  | AlreadyExists
  | InvalidInherent
  | InvalidReceipt
deriving DecidableEq

/-- The `AccountType` tag enumeration (`nimiq-primitives`), with exactly the
variants matched by `account.rs`. -/
inductive AccountType where
  | Basic
  | Vesting
  | HTLC
  | Staking
  | StakingValidator
  | StakingValidatorsStaker
  | StakingStaker
deriving DecidableEq

/-- `BasicAccount` : a plain balance-holding account. -/
structure BasicAccount where
  balance : Nat
deriving DecidableEq

/-- `VestingContract` fields, from the spec's data model. -/
structure VestingContract where
  balance : Nat
  owner : Nat
  start_time : Nat
  time_step : Nat
  step_amount : Nat
  total_amount : Nat
deriving DecidableEq

/-- `HashedTimeLockedContract` fields, from the spec's data model. -/
structure HashedTimeLockedContract where
  balance : Nat
  sender : Nat
  recipient : Nat
  hash_algorithm : Nat
  hash_root : Nat
  hash_count : Nat
  timeout : Nat
  total_amount : Nat
deriving DecidableEq

/-- A validator record of the staking contract: identifier, balance and
reward address (key material abstracted to a natural). -/
structure Validator where
  id : Nat
  balance : Nat
  reward_address : Nat
  validator_key : Nat
deriving DecidableEq

/-- A staker record of the staking contract, with the two stake components
summed by `Account::balance`. -/
structure Staker where
  active_stake : Nat
  inactive_stake : Nat
  delegation : Nat
deriving DecidableEq

/-- The `StakingContract` account: its own balance plus the validator and
staker records. -/
structure StakingContract where
  balance : Nat
  validators : List Validator
  stakers : List (Nat × Staker)
deriving DecidableEq

/-- The `Account` sum type of `account.rs`, with its seven variants. -/
inductive Account where
  | Basic (account : BasicAccount)
  | Vesting (account : VestingContract)
  | HTLC (account : HashedTimeLockedContract)
  | Staking (account : StakingContract)
  | StakingValidator (account : Validator)
  | StakingValidatorsStaker (address : Nat)
  | StakingStaker (account : Staker)
deriving DecidableEq

/-- `Account::account_type`, the tag of each variant. -/
def Account.account_type : Account → AccountType
  | .Basic _ => .Basic
  | .Vesting _ => .Vesting
  | .HTLC _ => .HTLC
  | .Staking _ => .Staking
  | .StakingValidator _ => .StakingValidator
  | .StakingValidatorsStaker _ => .StakingValidatorsStaker
  | .StakingStaker _ => .StakingStaker

/-- `Account::balance` from `account.rs`.  The `StakingValidatorsStaker` arm
of the source hits `unimplemented!()` (a panic), which the embedding renders
as `none`; every other arm returns a coin value, the stored balance field
except for `StakingStaker` which returns `active_stake + inactive_stake`. -/
def Account.balance : Account → Option Nat
  | .Basic account => some account.balance
  | .Vesting account => some account.balance
  | .HTLC account => some account.balance
  | .Staking account => some account.balance
  | .StakingValidator account => some account.balance
  | .StakingValidatorsStaker _ => none
  | .StakingStaker account => some (account.active_stake + account.inactive_stake)

/-- `Account::balance_add` from `account.rs`: checked addition, mapping
overflow to `InvalidCoinValue`. -/
def Account.balance_add (balance value : Nat) : Except AccountError Nat :=
  match Coin.checked_add balance value with
  | some result => .ok result
  | none => .error .InvalidCoinValue

/-- `Account::balance_sub` from `account.rs`: checked subtraction, mapping
underflow to `InsufficientFunds { balance, needed }`. -/
def Account.balance_sub (balance value : Nat) : Except AccountError Nat :=
  match Coin.checked_sub balance value with
  | some result => .ok result
  | none => .error (.InsufficientFunds balance value)

/-! ### The Merkle-ized account store

Modelled from the spec: the `AccountsTree` (`nimiq-trie`) is not part of the
sources.  The spec requires an ordered key-value store whose Merkle root is
an injective commitment to its full contents.  We model the store as an
association list kept strictly sorted by address, which makes the state
canonical: two stores hold the same accounts exactly when they are equal,
so root-hash equality is state equality. -/

/-- The account store: an address-sorted association list. -/
abbrev AccountsTree := List (Nat × Account)

/-- Lookup of an address in the store. -/
def AccountsTree.get : AccountsTree → Nat → Option Account
  | [], _ => none
  | (k, v) :: rest, a => if k = a then some v else AccountsTree.get rest a

/-- Sorted insert-or-replace of an account at an address. -/
def AccountsTree.put : AccountsTree → Nat → Account → AccountsTree
  | [], a, acc => [(a, acc)]
  | (k, v) :: rest, a, acc =>
    if a < k then (a, acc) :: (k, v) :: rest
    else if a = k then (a, acc) :: rest
    else (k, v) :: AccountsTree.put rest a acc

/-- Removal (pruning) of an address from the store. -/
def AccountsTree.remove : AccountsTree → Nat → AccountsTree
  | [], _ => []
  | (k, v) :: rest, a =>
    if a = k then rest else (k, v) :: AccountsTree.remove rest a

/-- Strict key-sortedness: the canonical-form invariant of the store. -/
def AccountsTree.Sorted (s : AccountsTree) : Prop :=
  List.Pairwise (fun p q => p.1 < q.1) s

/-- A stored account is admissible: basic accounts are pruned at zero
balance (spec: zero-balance, state-free accounts may be pruned) and all
balances lie in the coin range. -/
def Account.Admissible : Account → Prop
  | .Basic account => 0 < account.balance ∧ account.balance ≤ COIN_MAX
  | _ => True

instance : DecidablePred Account.Admissible := by
  intro a
  cases a <;> simp [Account.Admissible] <;> infer_instance

/-- Well-formedness of a store: canonical order plus admissible entries.
This is the invariant holding of every state reachable by valid commits. -/
def AccountsTree.Wf (s : AccountsTree) : Prop :=
  AccountsTree.Sorted s ∧ ∀ p ∈ s, Account.Admissible p.2

/-! ### Transactions, inherents and receipts -/

/-- A transaction, from the spec's data model (signature proof abstracted). -/
structure Transaction where
  sender : Nat
  sender_type : AccountType
  recipient : Nat
  recipient_type : AccountType
  value : Nat
  fee : Nat
  validity_start_height : Nat
  network_id : Nat
deriving DecidableEq

/-- Inherent types, from the spec's data model. -/
inductive InherentType where
  | Reward
  | Penalize
  | Jail
deriving DecidableEq

/-- A protocol-generated inherent (data bytes abstracted to a natural). -/
structure Inherent where
  ty : InherentType
  target : Nat
  value : Nat
  data : Nat
deriving DecidableEq

/-- A receipt: the minimal per-operation undo record, as in the `Receipts`
observed by the account tests (`Receipt::Transaction { index, sender, data }`
and `Receipt::Inherent { index, pre_transactions, data }`). -/
inductive Receipt where
  | Transaction (index : Nat) (sender : Bool) (data : Option Nat)
  | Inherent (index : Nat) (pre_transactions : Bool) (data : Option Nat)
deriving DecidableEq

/-! ### Basic-account appliers

Modelled from the spec: `BasicAccount`'s `AccountTransactionInteraction` and
`AccountInherentInteraction` implementations are not part of the sources.
Per the spec, a basic account is a checked balance: outgoing transactions
withdraw `value + fee` from an existing account, incoming transactions and
reward inherents deposit `value`, creating the account on first use, and a
basic account reaching balance zero is pruned from the store.  The modelled
appliers produce no receipt data (their undo records are fully determined by
the operation itself). -/

/-- Modelled from the spec: deposit `value` into the basic account at `a`
whose current balance is `current`, with checked arithmetic; a zeroed
account is pruned, otherwise the updated account is stored. -/
def depositAt (s : AccountsTree) (a : Nat) (current value : Nat) :
    Except AccountError AccountsTree :=
  match Account.balance_add current value with
  | .error e => .error e
  | .ok new_balance =>
    if new_balance = 0 then .ok (AccountsTree.remove s a)
    else .ok (AccountsTree.put s a (.Basic ⟨new_balance⟩))

/-- Modelled from the spec: withdraw `value` from the basic account at `a`
whose current balance is `current`, with checked arithmetic; a zeroed
account is pruned, otherwise the updated account is stored. -/
def withdrawAt (s : AccountsTree) (a : Nat) (current value : Nat) :
    Except AccountError AccountsTree :=
  match Account.balance_sub current value with
  | .error e => .error e
  | .ok new_balance =>
    if new_balance = 0 then .ok (AccountsTree.remove s a)
    else .ok (AccountsTree.put s a (.Basic ⟨new_balance⟩))

/-- Modelled from the spec: withdraw `value + fee` from the sender's basic
account; absent sender is `NonExistentAddress`, shortfall is
`InsufficientFunds`, and a zeroed account is pruned. -/
def BasicAccount.commit_outgoing_transaction (s : AccountsTree) (tr : Transaction) :
    Except AccountError AccountsTree :=
  match AccountsTree.get s tr.sender with
  | none => .error (.NonExistentAddress tr.sender)
  | some (.Basic account) => withdrawAt s tr.sender account.balance (tr.value + tr.fee)
  | some _ => .error .InvalidForSender

/-- Modelled from the spec: undo of an outgoing transaction re-deposits
`value + fee` into the sender's account, re-creating it if it was pruned. -/
def BasicAccount.revert_outgoing_transaction (s : AccountsTree) (tr : Transaction) :
    Except AccountError AccountsTree :=
  match AccountsTree.get s tr.sender with
  | none => depositAt s tr.sender 0 (tr.value + tr.fee)
  | some (.Basic account) => depositAt s tr.sender account.balance (tr.value + tr.fee)
  | some _ => .error .InvalidForSender

/-- Modelled from the spec: deposit `value` into the recipient's basic
account, creating it on first use; a zeroed account is pruned. -/
def BasicAccount.commit_incoming_transaction (s : AccountsTree) (tr : Transaction) :
    Except AccountError AccountsTree :=
  match AccountsTree.get s tr.recipient with
  | none => depositAt s tr.recipient 0 tr.value
  | some (.Basic account) => depositAt s tr.recipient account.balance tr.value
  | some _ => .error .InvalidForRecipient

/-- Modelled from the spec: undo of an incoming transaction withdraws
`value` again, pruning the account if that was its whole balance (this is
what makes accounts created by the commit absent again after revert). -/
def BasicAccount.revert_incoming_transaction (s : AccountsTree) (tr : Transaction) :
    Except AccountError AccountsTree :=
  match AccountsTree.get s tr.recipient with
  | none => withdrawAt s tr.recipient 0 tr.value
  | some (.Basic account) => withdrawAt s tr.recipient account.balance tr.value
  | some _ => .error .InvalidForRecipient

/-- Modelled from the spec: a reward inherent deposits `value` into the
target's basic account, creating it on first use; any other inherent type is
invalid for a basic account. -/
def BasicAccount.commit_inherent (s : AccountsTree) (inh : Inherent) :
    Except AccountError AccountsTree :=
  match inh.ty with
  | .Reward =>
    match AccountsTree.get s inh.target with
    | none => depositAt s inh.target 0 inh.value
    | some (.Basic account) => depositAt s inh.target account.balance inh.value
    | some _ => .error .InvalidInherent
  | _ => .error .InvalidInherent

/-- Modelled from the spec: undo of a reward inherent withdraws `value`
again, pruning a zeroed account. -/
def BasicAccount.revert_inherent (s : AccountsTree) (inh : Inherent) :
    Except AccountError AccountsTree :=
  match inh.ty with
  | .Reward =>
    match AccountsTree.get s inh.target with
    | none => withdrawAt s inh.target 0 inh.value
    | some (.Basic account) => withdrawAt s inh.target account.balance inh.value
    | some _ => .error .InvalidInherent
  | _ => .error .InvalidInherent

/-! ### Contract creation -/

/-- Modelled from the spec: `VestingContract::create` is not part of the
sources; a creation transaction installs the vesting contract at the
creation address unless an account already exists there.  Parameter parsing
from the transaction data is outside the modelled fragment; the contract
fields are populated from the transaction envelope. -/
def VestingContract.create (s : AccountsTree) (balance : Nat) (tr : Transaction)
    (block_time : Nat) : Except AccountError AccountsTree :=
  match AccountsTree.get s tr.recipient with
  | some _ => .error .AlreadyExists
  | none =>
    .ok (AccountsTree.put s tr.recipient
      (.Vesting ⟨balance, tr.sender, block_time, 0, balance, balance⟩))

/-- Modelled from the spec: `HashedTimeLockedContract::create` is not part
of the sources; a creation transaction installs the HTLC at the creation
address unless an account already exists there. -/
def HashedTimeLockedContract.create (s : AccountsTree) (balance : Nat) (tr : Transaction)
    (block_time : Nat) : Except AccountError AccountsTree :=
  match AccountsTree.get s tr.recipient with
  | some _ => .error .AlreadyExists
  | none =>
    .ok (AccountsTree.put s tr.recipient
      (.HTLC ⟨balance, tr.sender, tr.recipient, 0, 0, 1, block_time, balance⟩))

/-- `Account::create` from `account.rs`: dispatch on the transaction's
recipient type.  `Basic` and `Staking` recipients are rejected with
`InvalidForRecipient`; `Vesting` and `HTLC` dispatch to the respective
contract constructors; the remaining tags hit `unreachable!()` in the
source, rendered as `none`. -/
def Account.create (s : AccountsTree) (balance : Nat) (transaction : Transaction)
    (block_height block_time : Nat) : Option (Except AccountError AccountsTree) :=
  match transaction.recipient_type with
  | .Basic => some (.error .InvalidForRecipient)
  | .Vesting => some (VestingContract.create s balance transaction block_time)
  | .HTLC => some (HashedTimeLockedContract.create s balance transaction block_time)
  | .Staking => some (.error .InvalidForRecipient)
  | _ => none

/-! ### Dispatchers of `account.rs`

The dispatchers select the applier by the type tag carried by the operation
(sender/recipient type for transactions, the stored account's type for
inherents), exactly as in the source.  Arms whose applier implementation is
not part of the sources (`Vesting`, `HTLC`, `Staking` appliers) are outside
the embedded fragment and are rendered as `none`; no ledger success path
traverses them. -/

/-- `Account::commit_outgoing_transaction`: dispatch on `sender_type`. -/
def Account.commit_outgoing_transaction (s : AccountsTree) (transaction : Transaction)
    (block_height block_time : Nat) : Option (Except AccountError AccountsTree) :=
  match transaction.sender_type with
  | .Basic => some (BasicAccount.commit_outgoing_transaction s transaction)
  | _ => none

/-- `Account::revert_outgoing_transaction`: dispatch on `sender_type`. -/
def Account.revert_outgoing_transaction (s : AccountsTree) (transaction : Transaction)
    (block_height block_time : Nat) (receipt : Option Nat) :
    Option (Except AccountError AccountsTree) :=
  match transaction.sender_type with
  | .Basic => some (BasicAccount.revert_outgoing_transaction s transaction)
  | _ => none

/-- `Account::commit_incoming_transaction`: dispatch on `recipient_type`. -/
def Account.commit_incoming_transaction (s : AccountsTree) (transaction : Transaction)
    (block_height block_time : Nat) : Option (Except AccountError AccountsTree) :=
  match transaction.recipient_type with
  | .Basic => some (BasicAccount.commit_incoming_transaction s transaction)
  | _ => none

/-- `Account::revert_incoming_transaction`: dispatch on `recipient_type`. -/
def Account.revert_incoming_transaction (s : AccountsTree) (transaction : Transaction)
    (block_height block_time : Nat) (receipt : Option Nat) :
    Option (Except AccountError AccountsTree) :=
  match transaction.recipient_type with
  | .Basic => some (BasicAccount.revert_incoming_transaction s transaction)
  | _ => none

/-- `Account::commit_inherent` from `account.rs` dispatches on the account
type currently stored at the inherent's target, failing with
`NonExistentAddress` when there is none; the enclosing ledger commit
(modelled from the spec) first creates a basic account for the target of a
reward inherent on first use, which is what lets the reward commit of the
test suite succeed on a fresh address. -/
def Account.commit_inherent (s : AccountsTree) (inherent : Inherent)
    (block_height block_time : Nat) : Option (Except AccountError AccountsTree) :=
  match AccountsTree.get s inherent.target with
  | none =>
    if inherent.ty = .Reward then some (BasicAccount.commit_inherent s inherent)
    else some (.error (.NonExistentAddress inherent.target))
  | some (.Basic _) => some (BasicAccount.commit_inherent s inherent)
  | some _ => none

/-- `Account::revert_inherent` from `account.rs`: dispatch on the stored
account's type; a missing target is `NonExistentAddress`. -/
def Account.revert_inherent (s : AccountsTree) (inherent : Inherent)
    (block_height block_time : Nat) (receipt : Option Nat) :
    Option (Except AccountError AccountsTree) :=
  match AccountsTree.get s inherent.target with
  | none => some (.error (.NonExistentAddress inherent.target))
  | some (.Basic _) => some (BasicAccount.revert_inherent s inherent)
  | some _ => none

/-! ### The ledger engine (`Accounts`)

Modelled from the spec: the `Accounts` struct is not part of the sources.
`commit` applies all transactions in block order (all sender sides first,
then all recipient sides), then all inherents in block order, inside one
storage transaction; any failure aborts the whole commit and the caller
discards the storage transaction.  `revert` undoes the receipt log strictly
LIFO.  `none` marks an input that leaves the embedded (basic-account)
fragment. -/

/-- Sequential commit of a list of operations, aborting on the first error
and leaving the embedded fragment on `none`. -/
def commitList (f : AccountsTree → α → Option (Except AccountError AccountsTree)) :
    AccountsTree → List α → Option (Except AccountError AccountsTree)
  | s, [] => some (.ok s)
  | s, x :: xs =>
    match f s x with
    | none => none
    | some (.error e) => some (.error e)
    | some (.ok s₁) => commitList f s₁ xs

/-- Sequential LIFO undo of a list of operations: later operations are
undone first. -/
def revertList (g : AccountsTree → α → Option (Except AccountError AccountsTree)) :
    AccountsTree → List α → Option (Except AccountError AccountsTree)
  | s, [] => some (.ok s)
  | s, x :: xs =>
    match revertList g s xs with
    | none => none
    | some (.error e) => some (.error e)
    | some (.ok s₁) => g s₁ x

/-- The receipt entries recorded for the transaction sides (`sender` marks
the outgoing side), indexed in block order. -/
def txReceipts (sender : Bool) (n : Nat) : List Receipt :=
  (List.range n).map (fun i => .Transaction i sender none)

/-- The receipt entries recorded for the inherents, indexed in block
order. -/
def inherentReceipts (n : Nat) : List Receipt :=
  (List.range n).map (fun i => .Inherent i false none)

/-- Modelled from the spec: the single commit step for one inherent; the
ledger creates the target's basic account on first use for rewards (see
`Account.commit_inherent`). -/
def Accounts.commit_step_inherent (block_height block_time : Nat)
    (s : AccountsTree) (inh : Inherent) : Option (Except AccountError AccountsTree) :=
  Account.commit_inherent s inh block_height block_time

/-- Modelled from the spec: `Accounts::commit` — all sender sides in block
order, then all recipient sides, then all inherents; the receipt log records
one entry per applied operation in that order. -/
def Accounts.commit (s : AccountsTree) (transactions : List Transaction)
    (inherents : List Inherent) (block_height block_time : Nat) :
    Option (Except AccountError (AccountsTree × List Receipt)) :=
  match commitList (fun s tr => Account.commit_outgoing_transaction s tr block_height block_time)
      s transactions with
  | none => none
  | some (.error e) => some (.error e)
  | some (.ok s₁) =>
    match commitList (fun s tr => Account.commit_incoming_transaction s tr block_height block_time)
        s₁ transactions with
    | none => none
    | some (.error e) => some (.error e)
    | some (.ok s₂) =>
      match commitList (Accounts.commit_step_inherent block_height block_time) s₂ inherents with
      | none => none
      | some (.error e) => some (.error e)
      | some (.ok s₃) =>
        some (.ok (s₃,
          txReceipts true transactions.length ++ txReceipts false transactions.length ++
            inherentReceipts inherents.length))

/-- Undo of one receipt-log entry: the entry's index selects the operation
and its side selects the applier, as in the source dispatchers. -/
def Accounts.revert_entry (transactions : List Transaction) (inherents : List Inherent)
    (block_height block_time : Nat) (s : AccountsTree) :
    Receipt → Option (Except AccountError AccountsTree)
  | .Transaction index true data =>
    match transactions.get? index with
    | some tr => Account.revert_outgoing_transaction s tr block_height block_time data
    | none => some (.error .InvalidReceipt)
  | .Transaction index false data =>
    match transactions.get? index with
    | some tr => Account.revert_incoming_transaction s tr block_height block_time data
    | none => some (.error .InvalidReceipt)
  | .Inherent index _ data =>
    match inherents.get? index with
    | some inh => Account.revert_inherent s inh block_height block_time data
    | none => some (.error .InvalidReceipt)

/-- Modelled from the spec: `Accounts::revert` undoes the receipt log
strictly LIFO — the last recorded receipt is undone first. -/
def Accounts.revert (s : AccountsTree) (transactions : List Transaction)
    (inherents : List Inherent) (block_height block_time : Nat) :
    List Receipt → Option (Except AccountError AccountsTree)
  | [] => some (.ok s)
  | r :: rest =>
    match Accounts.revert s transactions inherents block_height block_time rest with
    | none => none
    | some (.error e) => some (.error e)
    | some (.ok s₁) => Accounts.revert_entry transactions inherents block_height block_time s₁ r

/-- Modelled from the spec: the Merkle root is an injective commitment to
the full store contents; over the canonical sorted store it is the store
itself, so root equality is exactly state equality. -/
def Accounts.get_root (s : AccountsTree) : AccountsTree := s

/-- `Accounts::get`: account lookup in the store. -/
def Accounts.get (s : AccountsTree) (address : Nat) : Option Account :=
  AccountsTree.get s address

/-- Modelled from the spec: the caller (push pipeline) owns the storage
transaction backing a commit and discards it whenever commit errors, so the
persisted ledger after a failed commit is the pre-commit ledger. -/
def Accounts.commit_and_persist (s : AccountsTree) (transactions : List Transaction)
    (inherents : List Inherent) (block_height block_time : Nat) : AccountsTree :=
  match Accounts.commit s transactions inherents block_height block_time with
  | some (.ok (s', _)) => s'
  | _ => s

/-! ### Validator selection

Modelled from the spec: `StakingContract::select_validators` is not part of
the sources.  It is a deterministic weighted sampling over active stake,
seeded by the epoch-closing block's VRF output, producing exactly `SLOTS`
slot mappings with ties broken by validator-id ordering. -/

/-- The fixed number of validator slots. -/
def SLOTS : Nat := 512

/-- Insertion into a validator list ordered by validator id. -/
def insertById (v : Validator) : List Validator → List Validator
  | [] => [v]
  | w :: ws => if v.id ≤ w.id then v :: w :: ws else w :: insertById v ws

/-- Sorting validators by id: the tie-breaking order of slot sampling. -/
def sortById : List Validator → List Validator
  | [] => []
  | v :: vs => insertById v (sortById vs)

/-- Total active stake of a validator list. -/
def totalStake (vs : List Validator) : Nat :=
  (vs.map Validator.balance).sum

/-- Weighted pick: walk the id-ordered cumulative stake ranges and return
the id of the validator whose range contains the sample point. -/
def pickValidator : List Validator → Nat → Nat
  | [], _ => 0
  | v :: vs, r => if r < v.balance then v.id else pickValidator vs (r - v.balance)

/-- Modelled from the spec: deterministic expansion of the VRF seed into
one sample point per slot. -/
def vrfSample (seed i : Nat) : Nat := Nat.pair seed i

/-- Modelled from the spec: `select_validators` — for each of the `SLOTS`
slots, sample a validator weighted by stake from the id-ordered validator
list, deterministically from the VRF seed. -/
def StakingContract.select_validators (c : StakingContract) (seed : Nat) :
    List (Nat × Nat) :=
  let vs := sortById c.validators
  let total := totalStake vs
  (List.range SLOTS).map (fun i => (i, pickValidator vs (vrfSample seed i % total)))

/-! ### Blocks and the push pipeline

The micro-block data model follows `micro_block.rs`; byte vectors and
hashes are abstracted to naturals, and hashing is modelled by the injective
pairing function (a commitment with no collisions, matching the role of
Blake2b in the source).  The blockchain, push pipeline, view-change and
fork-proof verification are modelled from the spec; `none` again marks
inputs leaving the modelled fragment. -/

/-- Modelled from the spec: signing is an injective commitment of key and
message (the signature scheme itself is an external collaborator). -/
def sign (key message : Nat) : Nat := Nat.pair key message

/-- Signature verification for the modelled scheme. -/
def verify_sig (signature key message : Nat) : Bool := signature == sign key message

/-- The header of a micro block, from `micro_block.rs` (the `extra_data`
byte vector is abstracted to one natural). -/
structure MicroHeader where
  version : Nat
  block_number : Nat
  view_number : Nat
  timestamp : Nat
  parent_hash : Nat
  seed : Nat
  extra_data : Nat
  state_root : Nat
  body_root : Nat
  history_root : Nat
deriving DecidableEq

/-- The header hash: an injective commitment to all header fields. -/
def MicroHeader.hash (h : MicroHeader) : Nat :=
  Nat.pair h.version (Nat.pair h.block_number (Nat.pair h.view_number (Nat.pair h.timestamp
    (Nat.pair h.parent_hash (Nat.pair h.seed (Nat.pair h.extra_data (Nat.pair h.state_root
      (Nat.pair h.body_root h.history_root))))))))

/-- Modelled from the spec: a view-change proof is an aggregate signature
over `(blockNumber, newView, prevSeed)` from a weighted quorum; the
aggregate is an opaque pre-verified input, so the proof carries the message
it binds and its total signer weight. -/
structure ViewChangeProof where
  block_number : Nat
  new_view_number : Nat
  prev_seed : Nat
  weight : Nat
deriving DecidableEq

/-- The quorum threshold (2f+1 of the slots). -/
def TWO_THIRD_SLOTS : Nat := 2 * SLOTS / 3 + 1

/-- Modelled from the spec: a view-change proof is valid for a block when
it binds that block's number and view, is built over the actual head seed,
and carries at least quorum weight. -/
def ViewChangeProof.verify (p : ViewChangeProof) (block_number view_number head_seed : Nat) :
    Bool :=
  (p.block_number == block_number) && (p.new_view_number == view_number) &&
    (p.prev_seed == head_seed) && (TWO_THIRD_SLOTS ≤ p.weight)

/-- The justification of a micro block, from `micro_block.rs`. -/
structure MicroJustification where
  signature : Nat
  view_change_proof : Option ViewChangeProof
deriving DecidableEq

/-- A fork proof, from the spec's data model: two conflicting headers with
their producer signatures. -/
structure ForkProof where
  header1 : MicroHeader
  header2 : MicroHeader
  justification1 : Nat
  justification2 : Nat
  prev_vrf_seed : Nat
deriving DecidableEq

/-- Modelled from the spec: fork-proof validity — both embedded headers
carry valid signatures of the claimed slot key, share
`(blockNumber, viewNumber)`, and are actually conflicting (distinct
hashes). -/
def ForkProof.verify (fp : ForkProof) (slot_key : Nat) : Bool :=
  verify_sig fp.justification1 slot_key fp.header1.hash &&
    verify_sig fp.justification2 slot_key fp.header2.hash &&
    (fp.header1.block_number == fp.header2.block_number) &&
    (fp.header1.view_number == fp.header2.view_number) &&
    (fp.header1.hash != fp.header2.hash)

/-- The address of the unique staking contract (penalization target). -/
def STAKING_CONTRACT_ADDRESS : Nat := 0

/-- Modelled from the spec: the single penalization inherent a valid fork
proof schedules, identifying the equivocation by its slot coordinates. -/
def ForkProof.penalty_inherent (fp : ForkProof) : Inherent :=
  { ty := .Penalize, target := STAKING_CONTRACT_ADDRESS, value := 0,
    data := Nat.pair fp.header1.block_number fp.header1.view_number }

/-- The body of a micro block, from `micro_block.rs`. -/
structure MicroBody where
  fork_proofs : List ForkProof
  transactions : List Transaction
deriving DecidableEq

/-- Encoding of a list of naturals into one natural (body commitment). -/
def encodeList (l : List Nat) : Nat :=
  l.foldr (fun x acc => Nat.pair x acc + 1) 0

/-- Numeric tag of an account type (its serialization order). -/
def AccountType.toNat : AccountType → Nat
  | .Basic => 0
  | .Vesting => 1
  | .HTLC => 2
  | .Staking => 3
  | .StakingValidator => 4
  | .StakingValidatorsStaker => 5
  | .StakingStaker => 6

/-- Commitment to one transaction. -/
def Transaction.encode (tr : Transaction) : Nat :=
  Nat.pair tr.sender (Nat.pair tr.sender_type.toNat (Nat.pair tr.recipient
    (Nat.pair tr.recipient_type.toNat (Nat.pair tr.value (Nat.pair tr.fee
      (Nat.pair tr.validity_start_height tr.network_id))))))

/-- Commitment to one fork proof. -/
def ForkProof.encode (fp : ForkProof) : Nat :=
  Nat.pair fp.header1.hash (Nat.pair fp.header2.hash
    (Nat.pair fp.justification1 (Nat.pair fp.justification2 fp.prev_vrf_seed)))

/-- The body hash: a commitment to fork proofs and transactions. -/
def MicroBody.hash (b : MicroBody) : Nat :=
  Nat.pair (encodeList (b.fork_proofs.map ForkProof.encode))
    (encodeList (b.transactions.map Transaction.encode))

/-- A micro block, from `micro_block.rs`. -/
structure MicroBlock where
  header : MicroHeader
  justification : Option MicroJustification
  body : Option MicroBody
deriving DecidableEq

/-- The success variants of a push. -/
inductive PushResult where
  | Extended
  | Forked
  | Rebranched
  | Ignored
deriving DecidableEq

/-- Block-level validation errors, from the spec's error-handling design. -/
inductive BlockError where
  | InvalidViewChangeProof
  | InvalidJustification
  | InvalidForkProof
  | InvalidBodyRoot
  | InvalidStateRoot
  | InvalidBlockNumber
  | MissingJustification
  | MissingBody
deriving DecidableEq

/-- Push-level errors. -/
inductive PushError where
  | Orphan
  | InvalidBlock (e : BlockError)
  | AccountsError (e : AccountError)
deriving DecidableEq

/-- Modelled from the spec: the chain state as seen by the push pipeline —
head coordinates, the slot key assigned to the next block, the current
validator set, the ledger, and the penalization inherents scheduled for
inclusion in a later block. -/
structure Blockchain where
  block_number : Nat
  view_number : Nat
  head_hash : Nat
  head_seed : Nat
  slot_key : Nat
  validators : List Nat
  ledger : AccountsTree
  pending_penalties : List Inherent
deriving DecidableEq

/-- Modelled from the spec: the justification check for a micro block —
the producer signature must verify under the assigned slot key, and a block
with `viewNumber > 0` must carry a view-change proof valid over the actual
head seed. -/
def Blockchain.view_change_ok (c : Blockchain) (h : MicroHeader)
    (j : MicroJustification) : Bool :=
  if h.view_number == 0 then true
  else
    match j.view_change_proof with
    | none => false
    | some p => p.verify h.block_number h.view_number c.head_seed

/-- Modelled from the spec: `Blockchain::push` for a micro block extending
the head — structural checks, then justification checks, then fork-proof
checks, then the ledger commit; any failure rejects the block with the
chain state unchanged, success yields `Extended` with the head advanced and
one penalization inherent scheduled per fork proof.  Placement of blocks
not extending the head (fork retention and rebranching) is outside the
modelled fragment. -/
def Blockchain.push (c : Blockchain) (b : MicroBlock) :
    Option (Except PushError (PushResult × Blockchain)) :=
  match b.justification, b.body with
  | none, _ => some (.error (.InvalidBlock .MissingJustification))
  | _, none => some (.error (.InvalidBlock .MissingBody))
  | some j, some body =>
    if b.header.parent_hash ≠ c.head_hash then none
    else if b.header.block_number ≠ c.block_number + 1 then
      some (.error (.InvalidBlock .InvalidBlockNumber))
    else if b.header.body_root ≠ body.hash then
      some (.error (.InvalidBlock .InvalidBodyRoot))
    else if ¬ verify_sig j.signature c.slot_key b.header.hash then
      some (.error (.InvalidBlock .InvalidJustification))
    else if ¬ Blockchain.view_change_ok c b.header j then
      some (.error (.InvalidBlock .InvalidViewChangeProof))
    else if ¬ body.fork_proofs.all (fun fp => fp.verify c.slot_key) then
      some (.error (.InvalidBlock .InvalidForkProof))
    else
      match Accounts.commit c.ledger body.transactions [] b.header.block_number
          b.header.timestamp with
      | none => none
      | some (.error e) => some (.error (.AccountsError e))
      | some (.ok (ledger', _)) =>
        some (.ok (.Extended,
          { block_number := b.header.block_number
            view_number := b.header.view_number
            head_hash := b.header.hash
            head_seed := b.header.seed
            slot_key := c.slot_key
            validators := c.validators
            ledger := ledger'
            pending_penalties :=
              c.pending_penalties ++ body.fork_proofs.map ForkProof.penalty_inherent }))

/-- The situation of an address holding either no account or a basic
account with the given balance — the precondition under which the basic
appliers act on it. -/
def BasicAt (s : AccountsTree) (a cur : Nat) : Prop :=
  (AccountsTree.get s a = none ∧ cur = 0) ∨
    AccountsTree.get s a = some (.Basic ⟨cur⟩)

/-! ## Store lemmas -/

theorem get_put_self (s : AccountsTree) (a : Nat) (acc : Account) :
    AccountsTree.get (AccountsTree.put s a acc) a = some acc := by
  induction s with
  | nil => simp [AccountsTree.put, AccountsTree.get]
  | cons hd tl ih =>
    obtain ⟨k, v⟩ := hd
    by_cases h1 : a < k
    · simp [AccountsTree.put, h1, AccountsTree.get]
    · by_cases h2 : a = k
      · subst h2
        simp [AccountsTree.put, h1, AccountsTree.get]
      · simp [AccountsTree.put, h1, h2, AccountsTree.get, Ne.symm h2, ih]

theorem get_put_ne (s : AccountsTree) (a b : Nat) (acc : Account) (h : b ≠ a) :
    AccountsTree.get (AccountsTree.put s a acc) b = AccountsTree.get s b := by
  induction s with
  | nil => simp [AccountsTree.put, AccountsTree.get, Ne.symm h]
  | cons hd tl ih =>
    obtain ⟨k, v⟩ := hd
    by_cases h1 : a < k
    · simp [AccountsTree.put, h1, AccountsTree.get, Ne.symm h]
    · by_cases h2 : a = k
      · subst h2
        simp [AccountsTree.put, h1, AccountsTree.get, Ne.symm h]
      · simp [AccountsTree.put, h1, h2, AccountsTree.get, ih]

theorem get_eq_none_of_forall_ne (s : AccountsTree) (a : Nat)
    (h : ∀ p ∈ s, p.1 ≠ a) : AccountsTree.get s a = none := by
  induction s with
  | nil => simp [AccountsTree.get]
  | cons hd tl ih =>
    obtain ⟨k, v⟩ := hd
    have hk : k ≠ a := h (k, v) (by simp)
    simp only [AccountsTree.get, if_neg hk]
    exact ih (fun p hp => h p (by simp [hp]))

theorem get_mem (s : AccountsTree) (a : Nat) (acc : Account)
    (h : AccountsTree.get s a = some acc) : (a, acc) ∈ s := by
  induction s with
  | nil => simp [AccountsTree.get] at h
  | cons hd tl ih =>
    obtain ⟨k, v⟩ := hd
    by_cases hk : k = a
    · subst hk
      simp [AccountsTree.get] at h
      simp [h]
    · simp only [AccountsTree.get, if_neg hk] at h
      simp [ih h]

theorem remove_absent (s : AccountsTree) (a : Nat)
    (h : AccountsTree.get s a = none) : AccountsTree.remove s a = s := by
  induction s with
  | nil => simp [AccountsTree.remove]
  | cons hd tl ih =>
    obtain ⟨k, v⟩ := hd
    by_cases hk : k = a
    · subst hk
      simp [AccountsTree.get] at h
    · simp only [AccountsTree.get, if_neg hk] at h
      simp [AccountsTree.remove, Ne.symm hk, ih h]

theorem remove_put (s : AccountsTree) (a : Nat) (acc : Account)
    (h : AccountsTree.get s a = none) :
    AccountsTree.remove (AccountsTree.put s a acc) a = s := by
  induction s with
  | nil => simp [AccountsTree.put, AccountsTree.remove]
  | cons hd tl ih =>
    obtain ⟨k, v⟩ := hd
    by_cases h1 : a < k
    · simp [AccountsTree.put, h1, AccountsTree.remove]
    · by_cases h2 : a = k
      · subst h2
        simp [AccountsTree.get] at h
      · simp only [AccountsTree.get, if_neg (Ne.symm h2)] at h
        simp [AccountsTree.put, h1, h2, AccountsTree.remove, ih h]

theorem put_get_self (s : AccountsTree) (a : Nat) (acc : Account)
    (hs : AccountsTree.Sorted s) (h : AccountsTree.get s a = some acc) :
    AccountsTree.put s a acc = s := by
  induction s with
  | nil => simp [AccountsTree.get] at h
  | cons hd tl ih =>
    obtain ⟨k, v⟩ := hd
    have hs' : AccountsTree.Sorted tl := (List.pairwise_cons.mp hs).2
    by_cases h2 : a = k
    · subst h2
      simp [AccountsTree.get] at h
      simp [AccountsTree.put, h]
    · simp only [AccountsTree.get, if_neg (Ne.symm h2)] at h
      by_cases h1 : a < k
      · exfalso
        have hmem := get_mem tl a acc h
        have hlt : k < a := by simpa using (List.pairwise_cons.mp hs).1 (a, acc) hmem
        exact Nat.lt_asymm h1 hlt
      · simp [AccountsTree.put, h1, h2, ih hs' h]

theorem put_put (s : AccountsTree) (a : Nat) (acc old : Account)
    (hs : AccountsTree.Sorted s) (h : AccountsTree.get s a = some old) :
    AccountsTree.put (AccountsTree.put s a acc) a old = s := by
  induction s with
  | nil => simp [AccountsTree.get] at h
  | cons hd tl ih =>
    obtain ⟨k, v⟩ := hd
    have hs' : AccountsTree.Sorted tl := (List.pairwise_cons.mp hs).2
    by_cases h2 : a = k
    · subst h2
      simp [AccountsTree.get] at h
      simp [AccountsTree.put, h]
    · simp only [AccountsTree.get, if_neg (Ne.symm h2)] at h
      by_cases h1 : a < k
      · exfalso
        have hmem := get_mem tl a old h
        have hlt : k < a := by simpa using (List.pairwise_cons.mp hs).1 (a, old) hmem
        exact Nat.lt_asymm h1 hlt
      · simp [AccountsTree.put, h1, h2, ih hs' h]

theorem put_front (s : AccountsTree) (a : Nat) (acc : Account)
    (h : ∀ p ∈ s, a < p.1) : AccountsTree.put s a acc = (a, acc) :: s := by
  cases s with
  | nil => simp [AccountsTree.put]
  | cons hd tl =>
    obtain ⟨k, v⟩ := hd
    have : a < k := h (k, v) (by simp)
    simp [AccountsTree.put, this]

theorem put_remove (s : AccountsTree) (a : Nat) (old : Account)
    (hs : AccountsTree.Sorted s) (h : AccountsTree.get s a = some old) :
    AccountsTree.put (AccountsTree.remove s a) a old = s := by
  induction s with
  | nil => simp [AccountsTree.get] at h
  | cons hd tl ih =>
    obtain ⟨k, v⟩ := hd
    have hs' : AccountsTree.Sorted tl := (List.pairwise_cons.mp hs).2
    by_cases h2 : a = k
    · subst h2
      simp [AccountsTree.get] at h
      subst h
      simp only [AccountsTree.remove, if_pos rfl]
      exact put_front tl a v (fun p hp => (List.pairwise_cons.mp hs).1 p hp)
    · simp only [AccountsTree.get, if_neg (Ne.symm h2)] at h
      by_cases h1 : a < k
      · exfalso
        have hmem := get_mem tl a old h
        have hlt : k < a := by simpa using (List.pairwise_cons.mp hs).1 (a, old) hmem
        exact Nat.lt_asymm h1 hlt
      · simp [AccountsTree.remove, h2, AccountsTree.put, h1, ih hs' h]

theorem mem_put (s : AccountsTree) (a : Nat) (acc : Account) (p : Nat × Account)
    (h : p ∈ AccountsTree.put s a acc) : p = (a, acc) ∨ p ∈ s := by
  induction s with
  | nil =>
    simp [AccountsTree.put] at h
    simp [h]
  | cons hd tl ih =>
    obtain ⟨k, v⟩ := hd
    by_cases h1 : a < k
    · simp only [AccountsTree.put, if_pos h1] at h
      rcases List.mem_cons.mp h with h | h
      · exact Or.inl h
      · exact Or.inr h
    · by_cases h2 : a = k
      · simp only [AccountsTree.put, if_neg h1, if_pos h2] at h
        rcases List.mem_cons.mp h with h | h
        · exact Or.inl h
        · exact Or.inr (List.mem_cons_of_mem _ h)
      · simp only [AccountsTree.put, if_neg h1, if_neg h2] at h
        rcases List.mem_cons.mp h with h | h
        · exact Or.inr (by simp [h])
        · rcases ih h with h' | h'
          · exact Or.inl h'
          · exact Or.inr (List.mem_cons_of_mem _ h')

theorem sorted_put (s : AccountsTree) (a : Nat) (acc : Account)
    (hs : AccountsTree.Sorted s) : AccountsTree.Sorted (AccountsTree.put s a acc) := by
  induction s with
  | nil => simp [AccountsTree.put, AccountsTree.Sorted]
  | cons hd tl ih =>
    obtain ⟨k, v⟩ := hd
    obtain ⟨hk, hs'⟩ := List.pairwise_cons.mp hs
    by_cases h1 : a < k
    · simp only [AccountsTree.put, if_pos h1]
      refine List.pairwise_cons.mpr ⟨?_, hs⟩
      intro p hp
      rcases List.mem_cons.mp hp with h | h
      · simpa [h] using h1
      · have hlt : k < p.1 := by simpa using hk p h
        show a < p.1
        exact Nat.lt_trans h1 hlt
    · by_cases h2 : a = k
      · subst h2
        simp only [AccountsTree.put, if_neg h1, if_pos rfl]
        exact List.pairwise_cons.mpr ⟨hk, hs'⟩
      · simp only [AccountsTree.put, if_neg h1, if_neg h2]
        refine List.pairwise_cons.mpr ⟨?_, ih hs'⟩
        intro p hp
        rcases mem_put tl a acc p hp with h | h
        · subst h
          show k < a
          exact Nat.lt_of_le_of_ne (Nat.le_of_not_lt h1) (Ne.symm h2)
        · exact hk p h

theorem remove_sublist (s : AccountsTree) (a : Nat) :
    List.Sublist (AccountsTree.remove s a) s := by
  induction s with
  | nil => simp [AccountsTree.remove]
  | cons hd tl ih =>
    obtain ⟨k, v⟩ := hd
    by_cases h : a = k
    · simp only [AccountsTree.remove, if_pos h]
      exact List.sublist_cons_self _ _
    · simp only [AccountsTree.remove, if_neg h]
      exact List.Sublist.cons₂ _ ih

theorem sorted_remove (s : AccountsTree) (a : Nat)
    (hs : AccountsTree.Sorted s) : AccountsTree.Sorted (AccountsTree.remove s a) :=
  List.Pairwise.sublist (remove_sublist s a) hs

theorem wf_put (s : AccountsTree) (a : Nat) (acc : Account)
    (hs : AccountsTree.Wf s) (hacc : Account.Admissible acc) :
    AccountsTree.Wf (AccountsTree.put s a acc) := by
  refine ⟨sorted_put s a acc hs.1, ?_⟩
  intro p hp
  rcases mem_put s a acc p hp with h | h
  · subst h; exact hacc
  · exact hs.2 p h

theorem wf_remove (s : AccountsTree) (a : Nat) (hs : AccountsTree.Wf s) :
    AccountsTree.Wf (AccountsTree.remove s a) := by
  refine ⟨sorted_remove s a hs.1, ?_⟩
  intro p hp
  exact hs.2 p (List.Sublist.mem hp (remove_sublist s a))

theorem wf_get_admissible (s : AccountsTree) (a : Nat) (acc : Account)
    (hs : AccountsTree.Wf s) (h : AccountsTree.get s a = some acc) :
    Account.Admissible acc :=
  hs.2 (a, acc) (get_mem s a acc h)

theorem get_remove_self (s : AccountsTree) (a : Nat) (hs : AccountsTree.Sorted s) :
    AccountsTree.get (AccountsTree.remove s a) a = none := by
  induction s with
  | nil => simp [AccountsTree.remove, AccountsTree.get]
  | cons hd tl ih =>
    obtain ⟨k, v⟩ := hd
    obtain ⟨hk, hs'⟩ := List.pairwise_cons.mp hs
    by_cases h : a = k
    · subst h
      simp only [AccountsTree.remove, if_pos rfl]
      exact get_eq_none_of_forall_ne tl a
        (fun p hp => ne_of_gt (show a < p.1 by simpa using hk p hp))
    · simp only [AccountsTree.remove, if_neg h, AccountsTree.get, if_neg (Ne.symm h)]
      exact ih hs'

/-! ## Applier inverse lemmas -/

theorem balance_add_eq_ok (b v c : Nat) :
    Account.balance_add b v = .ok c ↔ b + v ≤ COIN_MAX ∧ c = b + v := by
  unfold Account.balance_add Coin.checked_add
  by_cases h : b + v ≤ COIN_MAX
  · simp [h, eq_comm]
  · simp [h]

theorem balance_sub_eq_ok (b v c : Nat) :
    Account.balance_sub b v = .ok c ↔ v ≤ b ∧ c = b - v := by
  unfold Account.balance_sub Coin.checked_sub
  by_cases h : v ≤ b
  · simp [h, eq_comm]
  · simp [h]

theorem depositAt_eq (s : AccountsTree) (a cur v : Nat) :
    depositAt s a cur v =
      if cur + v ≤ COIN_MAX then
        (if cur + v = 0 then .ok (AccountsTree.remove s a)
         else .ok (AccountsTree.put s a (.Basic ⟨cur + v⟩)))
      else .error .InvalidCoinValue := by
  unfold depositAt Account.balance_add Coin.checked_add
  by_cases h : cur + v ≤ COIN_MAX <;> simp [h]

theorem withdrawAt_eq (s : AccountsTree) (a cur v : Nat) :
    withdrawAt s a cur v =
      if v ≤ cur then
        (if cur - v = 0 then .ok (AccountsTree.remove s a)
         else .ok (AccountsTree.put s a (.Basic ⟨cur - v⟩)))
      else .error (.InsufficientFunds cur v) := by
  unfold withdrawAt Account.balance_sub Coin.checked_sub
  by_cases h : v ≤ cur <;> simp [h]

theorem deposit_inverse (s s' : AccountsTree) (a cur v : Nat)
    (hwf : AccountsTree.Wf s) (hcur : BasicAt s a cur)
    (hc : depositAt s a cur v = .ok s') :
    BasicAt s' a (cur + v) ∧ withdrawAt s' a (cur + v) v = .ok s ∧
      AccountsTree.Wf s' := by
  rw [depositAt_eq] at hc
  by_cases hmax : cur + v ≤ COIN_MAX
  · rw [if_pos hmax] at hc
    by_cases hz : cur + v = 0
    · rw [if_pos hz] at hc
      injection hc with hc'
      subst hc'
      rcases hcur with ⟨hget, rfl⟩ | hget
      · have hv0 : v = 0 := by omega
        subst hv0
        rw [remove_absent s a hget]
        refine ⟨Or.inl ⟨hget, rfl⟩, ?_, hwf⟩
        rw [withdrawAt_eq]
        simp [remove_absent s a hget]
      · exfalso
        have hadm := wf_get_admissible s a _ hwf hget
        simp [Account.Admissible] at hadm
        omega
    · rw [if_neg hz] at hc
      injection hc with hc'
      subst hc'
      refine ⟨Or.inr (get_put_self s a _), ?_, ?_⟩
      · rw [withdrawAt_eq, if_pos (Nat.le_add_left v cur)]
        have h1 : cur + v - v = cur := by omega
        rw [h1]
        by_cases hc0 : cur = 0
        · subst hc0
          rw [if_pos rfl]
          rcases hcur with ⟨hget, _⟩ | hget
          · rw [remove_put s a _ hget]
          · exfalso
            have hadm := wf_get_admissible s a _ hwf hget
            simp [Account.Admissible] at hadm
        · rw [if_neg hc0]
          rcases hcur with ⟨_, hcur0⟩ | hget
          · exact absurd hcur0 hc0
          · rw [put_put s a _ (.Basic ⟨cur⟩) hwf.1 hget]
      · refine wf_put s a _ hwf ?_
        simp [Account.Admissible]
        omega
  · rw [if_neg hmax] at hc
    exact Except.noConfusion hc

theorem withdraw_inverse (s s' : AccountsTree) (a cur v : Nat)
    (hwf : AccountsTree.Wf s) (hcur : BasicAt s a cur)
    (hc : withdrawAt s a cur v = .ok s') :
    BasicAt s' a (cur - v) ∧ depositAt s' a (cur - v) v = .ok s ∧
      AccountsTree.Wf s' := by
  rw [withdrawAt_eq] at hc
  by_cases hle : v ≤ cur
  · rw [if_pos hle] at hc
    by_cases hz : cur - v = 0
    · rw [if_pos hz] at hc
      injection hc with hc'
      subst hc'
      rcases hcur with ⟨hget, rfl⟩ | hget
      · have hv0 : v = 0 := by omega
        subst hv0
        rw [remove_absent s a hget]
        refine ⟨Or.inl ⟨hget, rfl⟩, ?_, hwf⟩
        rw [depositAt_eq]
        simp [remove_absent s a hget]
      · have hadm := wf_get_admissible s a _ hwf hget
        simp [Account.Admissible] at hadm
        have hvcur : v = cur := by omega
        refine ⟨Or.inl ⟨get_remove_self s a hwf.1, hz⟩, ?_, wf_remove s a hwf⟩
        rw [depositAt_eq]
        have h1 : cur - v + v = cur := by omega
        rw [h1, if_pos (by omega), if_neg (by omega)]
        have hacc : (Account.Basic ⟨cur⟩) = Account.Basic ⟨cur⟩ := rfl
        rw [put_remove s a (.Basic ⟨cur⟩) hwf.1 hget]
    · rw [if_neg hz] at hc
      injection hc with hc'
      subst hc'
      rcases hcur with ⟨_, hcur0⟩ | hget
      · exfalso
        apply hz
        omega
      · have hadm := wf_get_admissible s a _ hwf hget
        simp [Account.Admissible] at hadm
        refine ⟨Or.inr (get_put_self s a _), ?_, ?_⟩
        · rw [depositAt_eq]
          have h1 : cur - v + v = cur := by omega
          rw [h1, if_pos (by omega), if_neg (by omega)]
          rw [put_put s a _ (.Basic ⟨cur⟩) hwf.1 hget]
        · refine wf_put s a _ hwf ?_
          simp [Account.Admissible]
          omega
  · rw [if_neg hle] at hc
    exact Except.noConfusion hc

theorem commit_outgoing_inverse (s s' : AccountsTree) (tr : Transaction)
    (hwf : AccountsTree.Wf s)
    (hc : BasicAccount.commit_outgoing_transaction s tr = .ok s') :
    BasicAccount.revert_outgoing_transaction s' tr = .ok s ∧ AccountsTree.Wf s' := by
  unfold BasicAccount.commit_outgoing_transaction at hc
  cases hget : AccountsTree.get s tr.sender with
  | none =>
    rw [hget] at hc
    exact Except.noConfusion hc
  | some acc =>
    rw [hget] at hc
    cases acc with
    | Basic account =>
      obtain ⟨hb', hrev, hwf'⟩ :=
        withdraw_inverse s s' tr.sender account.balance (tr.value + tr.fee) hwf
          (Or.inr hget) hc
      refine ⟨?_, hwf'⟩
      unfold BasicAccount.revert_outgoing_transaction
      rcases hb' with ⟨hget', hz⟩ | hget'
      · rw [hget']
        rw [hz] at hrev
        exact hrev
      · rw [hget']
        exact hrev
    | Vesting account => exact Except.noConfusion hc
    | HTLC account => exact Except.noConfusion hc
    | Staking account => exact Except.noConfusion hc
    | StakingValidator account => exact Except.noConfusion hc
    | StakingValidatorsStaker address => exact Except.noConfusion hc
    | StakingStaker account => exact Except.noConfusion hc

theorem commit_incoming_inverse (s s' : AccountsTree) (tr : Transaction)
    (hwf : AccountsTree.Wf s)
    (hc : BasicAccount.commit_incoming_transaction s tr = .ok s') :
    BasicAccount.revert_incoming_transaction s' tr = .ok s ∧ AccountsTree.Wf s' := by
  unfold BasicAccount.commit_incoming_transaction at hc
  cases hget : AccountsTree.get s tr.recipient with
  | none =>
    rw [hget] at hc
    obtain ⟨hb', hrev, hwf'⟩ :=
      deposit_inverse s s' tr.recipient 0 tr.value hwf (Or.inl ⟨hget, rfl⟩) hc
    refine ⟨?_, hwf'⟩
    unfold BasicAccount.revert_incoming_transaction
    rcases hb' with ⟨hget', hz⟩ | hget'
    · rw [hget']
      rw [hz] at hrev
      exact hrev
    · rw [hget']
      exact hrev
  | some acc =>
    rw [hget] at hc
    cases acc with
    | Basic account =>
      obtain ⟨hb', hrev, hwf'⟩ :=
        deposit_inverse s s' tr.recipient account.balance tr.value hwf (Or.inr hget) hc
      refine ⟨?_, hwf'⟩
      unfold BasicAccount.revert_incoming_transaction
      rcases hb' with ⟨hget', hz⟩ | hget'
      · rw [hget']
        rw [hz] at hrev
        exact hrev
      · rw [hget']
        exact hrev
    | Vesting account => exact Except.noConfusion hc
    | HTLC account => exact Except.noConfusion hc
    | Staking account => exact Except.noConfusion hc
    | StakingValidator account => exact Except.noConfusion hc
    | StakingValidatorsStaker address => exact Except.noConfusion hc
    | StakingStaker account => exact Except.noConfusion hc

theorem account_commit_outgoing_inverse (s s' : AccountsTree) (tr : Transaction)
    (bh bt : Nat) (hwf : AccountsTree.Wf s)
    (hc : Account.commit_outgoing_transaction s tr bh bt = some (.ok s')) :
    Account.revert_outgoing_transaction s' tr bh bt none = some (.ok s) ∧
      AccountsTree.Wf s' := by
  unfold Account.commit_outgoing_transaction at hc
  unfold Account.revert_outgoing_transaction
  cases htype : tr.sender_type with
  | Basic =>
    rw [htype] at hc
    injection hc with hc₁
    obtain ⟨hrev, hwf'⟩ := commit_outgoing_inverse s s' tr hwf hc₁
    exact ⟨congrArg some hrev, hwf'⟩
  | Vesting => rw [htype] at hc; exact Option.noConfusion hc
  | HTLC => rw [htype] at hc; exact Option.noConfusion hc
  | Staking => rw [htype] at hc; exact Option.noConfusion hc
  | StakingValidator => rw [htype] at hc; exact Option.noConfusion hc
  | StakingValidatorsStaker => rw [htype] at hc; exact Option.noConfusion hc
  | StakingStaker => rw [htype] at hc; exact Option.noConfusion hc

theorem account_commit_incoming_inverse (s s' : AccountsTree) (tr : Transaction)
    (bh bt : Nat) (hwf : AccountsTree.Wf s)
    (hc : Account.commit_incoming_transaction s tr bh bt = some (.ok s')) :
    Account.revert_incoming_transaction s' tr bh bt none = some (.ok s) ∧
      AccountsTree.Wf s' := by
  unfold Account.commit_incoming_transaction at hc
  unfold Account.revert_incoming_transaction
  cases htype : tr.recipient_type with
  | Basic =>
    rw [htype] at hc
    injection hc with hc₁
    obtain ⟨hrev, hwf'⟩ := commit_incoming_inverse s s' tr hwf hc₁
    exact ⟨congrArg some hrev, hwf'⟩
  | Vesting => rw [htype] at hc; exact Option.noConfusion hc
  | HTLC => rw [htype] at hc; exact Option.noConfusion hc
  | Staking => rw [htype] at hc; exact Option.noConfusion hc
  | StakingValidator => rw [htype] at hc; exact Option.noConfusion hc
  | StakingValidatorsStaker => rw [htype] at hc; exact Option.noConfusion hc
  | StakingStaker => rw [htype] at hc; exact Option.noConfusion hc

theorem account_commit_inherent_inverse (s s' : AccountsTree) (inh : Inherent)
    (bh bt : Nat) (hwf : AccountsTree.Wf s) (hv : 0 < inh.value)
    (hc : Account.commit_inherent s inh bh bt = some (.ok s')) :
    Account.revert_inherent s' inh bh bt none = some (.ok s) ∧
      AccountsTree.Wf s' := by
  unfold Account.commit_inherent at hc
  cases hget : AccountsTree.get s inh.target with
  | none =>
    rw [hget] at hc
    by_cases hty : inh.ty = .Reward
    · rw [if_pos hty] at hc
      injection hc with hc₁
      unfold BasicAccount.commit_inherent at hc₁
      rw [hty, hget] at hc₁
      obtain ⟨hb', hrev, hwf'⟩ :=
        deposit_inverse s s' inh.target 0 inh.value hwf (Or.inl ⟨hget, rfl⟩) hc₁
      refine ⟨?_, hwf'⟩
      unfold Account.revert_inherent
      rcases hb' with ⟨hget', hz⟩ | hget'
      · exfalso
        omega
      · rw [hget']
        unfold BasicAccount.revert_inherent
        rw [hty, hget']
        exact congrArg some hrev
    · rw [if_neg hty] at hc
      injection hc with hc₁
      exact Except.noConfusion hc₁
  | some acc =>
    rw [hget] at hc
    cases acc with
    | Basic account =>
      injection hc with hc₁
      unfold BasicAccount.commit_inherent at hc₁
      cases hty : inh.ty with
      | Reward =>
        rw [hty, hget] at hc₁
        obtain ⟨hb', hrev, hwf'⟩ :=
          deposit_inverse s s' inh.target account.balance inh.value hwf (Or.inr hget) hc₁
        refine ⟨?_, hwf'⟩
        unfold Account.revert_inherent
        rcases hb' with ⟨hget', hz⟩ | hget'
        · exfalso
          omega
        · rw [hget']
          unfold BasicAccount.revert_inherent
          rw [hty, hget']
          exact congrArg some hrev
      | Penalize =>
        rw [hty] at hc₁
        exact Except.noConfusion hc₁
      | Jail =>
        rw [hty] at hc₁
        exact Except.noConfusion hc₁
    | Vesting account => exact Option.noConfusion hc
    | HTLC account => exact Option.noConfusion hc
    | Staking account => exact Option.noConfusion hc
    | StakingValidator account => exact Option.noConfusion hc
    | StakingValidatorsStaker address => exact Option.noConfusion hc
    | StakingStaker account => exact Option.noConfusion hc

theorem commitList_inverse {α : Type} {f g : AccountsTree → α → Option (Except AccountError AccountsTree)}
    (xs : List α) (s s' : AccountsTree)
    (H : ∀ u x u', x ∈ xs → AccountsTree.Wf u → f u x = some (.ok u') →
      g u' x = some (.ok u) ∧ AccountsTree.Wf u')
    (hwf : AccountsTree.Wf s) (hc : commitList f s xs = some (.ok s')) :
    revertList g s' xs = some (.ok s) ∧ AccountsTree.Wf s' := by
  induction xs generalizing s with
  | nil =>
    unfold commitList at hc
    injection hc with hc₁
    injection hc₁ with hc₂
    subst hc₂
    exact ⟨rfl, hwf⟩
  | cons x xs ih =>
    unfold commitList at hc
    cases hfx : f s x with
    | none =>
      rw [hfx] at hc
      exact Option.noConfusion hc
    | some r =>
      rw [hfx] at hc
      cases r with
      | error e =>
        injection hc with hc₁
        exact Except.noConfusion hc₁
      | ok s₁ =>
        obtain ⟨hg, hwf₁⟩ := H s x s₁ (List.mem_cons_self x xs) hwf hfx
        obtain ⟨hrv, hwf'⟩ :=
          ih s₁ (fun u y u' hy => H u y u' (List.mem_cons_of_mem x hy)) hwf₁ hc
        refine ⟨?_, hwf'⟩
        unfold revertList
        rw [hrv]
        exact hg

theorem revert_cons (txs : List Transaction) (inhs : List Inherent) (bh bt : Nat)
    (r : Receipt) (rest : List Receipt) (s : AccountsTree) :
    Accounts.revert s txs inhs bh bt (r :: rest) =
      match Accounts.revert s txs inhs bh bt rest with
      | none => none
      | some (.error e) => some (.error e)
      | some (.ok s₁) => Accounts.revert_entry txs inhs bh bt s₁ r := rfl

theorem revertList_cons {α : Type} (g : AccountsTree → α → Option (Except AccountError AccountsTree))
    (s : AccountsTree) (x : α) (xs : List α) :
    revertList g s (x :: xs) =
      match revertList g s xs with
      | none => none
      | some (.error e) => some (.error e)
      | some (.ok s₁) => g s₁ x := rfl

theorem revert_append_ok (txs : List Transaction) (inhs : List Inherent) (bh bt : Nat)
    (A B : List Receipt) (s s₁ : AccountsTree)
    (hB : Accounts.revert s txs inhs bh bt B = some (.ok s₁)) :
    Accounts.revert s txs inhs bh bt (A ++ B) =
      Accounts.revert s₁ txs inhs bh bt A := by
  induction A with
  | nil =>
    rw [List.nil_append]
    exact hB
  | cons r A ih =>
    rw [List.cons_append, revert_cons, ih, revert_cons]

theorem revert_tx_receipts_out (allTxs : List Transaction) (inhs : List Inherent)
    (bh bt : Nat) (txs : List Transaction) (k : Nat) (hdrop : allTxs.drop k = txs)
    (s : AccountsTree) :
    Accounts.revert s allTxs inhs bh bt
        ((List.range txs.length).map (fun i => Receipt.Transaction (k + i) true none)) =
      revertList (fun u tr => Account.revert_outgoing_transaction u tr bh bt none) s txs := by
  induction txs generalizing k s with
  | nil => rfl
  | cons x xs ih =>
    have hx : allTxs.get? k = some x := by
      have h0 := List.get?_drop allTxs k 0
      rw [hdrop] at h0
      simpa using h0.symm
    have hdrop' : allTxs.drop (k + 1) = xs := by
      have h1 := List.drop_drop 1 k allTxs
      rw [hdrop] at h1
      simpa using h1.symm
    simp only [List.length_cons, List.range_succ_eq_map, List.map_cons, List.map_map,
      Nat.add_zero]
    rw [revert_cons]
    have hmap : (List.range xs.length).map
          ((fun i => Receipt.Transaction (k + i) true none) ∘ Nat.succ) =
        (List.range xs.length).map (fun i => Receipt.Transaction (k + 1 + i) true none) := by
      apply List.map_congr_left
      intro i hi
      simp only [Function.comp]
      congr 1
      omega
    rw [hmap, ih (k + 1) hdrop', revertList_cons]
    cases hr : revertList (fun u tr => Account.revert_outgoing_transaction u tr bh bt none)
        s xs with
    | none => rfl
    | some r =>
      cases r with
      | error e => rfl
      | ok s₁ =>
        rw [List.get?_eq_getElem?] at hx
        simp [Accounts.revert_entry, hx]

theorem revert_tx_receipts_in (allTxs : List Transaction) (inhs : List Inherent)
    (bh bt : Nat) (txs : List Transaction) (k : Nat) (hdrop : allTxs.drop k = txs)
    (s : AccountsTree) :
    Accounts.revert s allTxs inhs bh bt
        ((List.range txs.length).map (fun i => Receipt.Transaction (k + i) false none)) =
      revertList (fun u tr => Account.revert_incoming_transaction u tr bh bt none) s txs := by
  induction txs generalizing k s with
  | nil => rfl
  | cons x xs ih =>
    have hx : allTxs.get? k = some x := by
      have h0 := List.get?_drop allTxs k 0
      rw [hdrop] at h0
      simpa using h0.symm
    have hdrop' : allTxs.drop (k + 1) = xs := by
      have h1 := List.drop_drop 1 k allTxs
      rw [hdrop] at h1
      simpa using h1.symm
    simp only [List.length_cons, List.range_succ_eq_map, List.map_cons, List.map_map,
      Nat.add_zero]
    rw [revert_cons]
    have hmap : (List.range xs.length).map
          ((fun i => Receipt.Transaction (k + i) false none) ∘ Nat.succ) =
        (List.range xs.length).map (fun i => Receipt.Transaction (k + 1 + i) false none) := by
      apply List.map_congr_left
      intro i hi
      simp only [Function.comp]
      congr 1
      omega
    rw [hmap, ih (k + 1) hdrop', revertList_cons]
    cases hr : revertList (fun u tr => Account.revert_incoming_transaction u tr bh bt none)
        s xs with
    | none => rfl
    | some r =>
      cases r with
      | error e => rfl
      | ok s₁ =>
        rw [List.get?_eq_getElem?] at hx
        simp [Accounts.revert_entry, hx]

theorem revert_inherent_receipts (txs : List Transaction) (allInhs : List Inherent)
    (bh bt : Nat) (inhs : List Inherent) (k : Nat) (hdrop : allInhs.drop k = inhs)
    (s : AccountsTree) :
    Accounts.revert s txs allInhs bh bt
        ((List.range inhs.length).map (fun i => Receipt.Inherent (k + i) false none)) =
      revertList (fun u inh => Account.revert_inherent u inh bh bt none) s inhs := by
  induction inhs generalizing k s with
  | nil => rfl
  | cons x xs ih =>
    have hx : allInhs.get? k = some x := by
      have h0 := List.get?_drop allInhs k 0
      rw [hdrop] at h0
      simpa using h0.symm
    have hdrop' : allInhs.drop (k + 1) = xs := by
      have h1 := List.drop_drop 1 k allInhs
      rw [hdrop] at h1
      simpa using h1.symm
    simp only [List.length_cons, List.range_succ_eq_map, List.map_cons, List.map_map,
      Nat.add_zero]
    rw [revert_cons]
    have hmap : (List.range xs.length).map
          ((fun i => Receipt.Inherent (k + i) false none) ∘ Nat.succ) =
        (List.range xs.length).map (fun i => Receipt.Inherent (k + 1 + i) false none) := by
      apply List.map_congr_left
      intro i hi
      simp only [Function.comp]
      congr 1
      omega
    rw [hmap, ih (k + 1) hdrop', revertList_cons]
    cases hr : revertList (fun u inh => Account.revert_inherent u inh bh bt none) s xs with
    | none => rfl
    | some r =>
      cases r with
      | error e => rfl
      | ok s₁ =>
        rw [List.get?_eq_getElem?] at hx
        simp [Accounts.revert_entry, hx]

theorem txReceipts_eq (sender : Bool) (n : Nat) :
    txReceipts sender n =
      (List.range n).map (fun i => Receipt.Transaction (0 + i) sender none) := by
  unfold txReceipts
  apply List.map_congr_left
  intro i hi
  simp

theorem inherentReceipts_eq (n : Nat) :
    inherentReceipts n =
      (List.range n).map (fun i => Receipt.Inherent (0 + i) false none) := by
  unfold inherentReceipts
  apply List.map_congr_left
  intro i hi
  simp

theorem accounts_commit_revert (s s' : AccountsTree) (txs : List Transaction)
    (inhs : List Inherent) (bh bt : Nat) (receipts : List Receipt)
    (hwf : AccountsTree.Wf s) (hpos : ∀ i ∈ inhs, 0 < i.value)
    (hc : Accounts.commit s txs inhs bh bt = some (.ok (s', receipts))) :
    Accounts.revert s' txs inhs bh bt receipts = some (.ok s) ∧ AccountsTree.Wf s' := by
  unfold Accounts.commit at hc
  split at hc
  next h1 => exact Option.noConfusion hc
  next e h1 =>
    injection hc with hcx
    exact Except.noConfusion hcx
  next s₁ h1 =>
    split at hc
    next h2 => exact Option.noConfusion hc
    next e h2 =>
      injection hc with hcx
      exact Except.noConfusion hcx
    next s₂ h2 =>
      split at hc
      next h3 => exact Option.noConfusion hc
      next e h3 =>
        injection hc with hcx
        exact Except.noConfusion hcx
      next s₃ h3 =>
        injection hc with hc₁
        injection hc₁ with hc₂
        injection hc₂ with hcs hcr
        subst hcs
        subst hcr
        obtain ⟨hrevOut, hwf₁⟩ :=
          @commitList_inverse _
            (fun u tr => Account.commit_outgoing_transaction u tr bh bt)
            (fun u tr => Account.revert_outgoing_transaction u tr bh bt none)
            txs s s₁
            (fun u x u' _ hu hfe =>
              account_commit_outgoing_inverse u u' x bh bt hu hfe)
            hwf h1
        obtain ⟨hrevIn, hwf₂⟩ :=
          @commitList_inverse _
            (fun u tr => Account.commit_incoming_transaction u tr bh bt)
            (fun u tr => Account.revert_incoming_transaction u tr bh bt none)
            txs s₁ s₂
            (fun u x u' _ hu hfe =>
              account_commit_incoming_inverse u u' x bh bt hu hfe)
            hwf₁ h2
        obtain ⟨hrevInh, hwf₃⟩ :=
          @commitList_inverse _
            (Accounts.commit_step_inherent bh bt)
            (fun u inh => Account.revert_inherent u inh bh bt none)
            inhs s₂ s₃
            (fun u x u' hx hu hfe =>
              account_commit_inherent_inverse u u' x bh bt hu (hpos x hx) hfe)
            hwf₂ h3
        refine ⟨?_, hwf₃⟩
        have hC : Accounts.revert s₃ txs inhs bh bt
            (inherentReceipts inhs.length) = some (.ok s₂) := by
          rw [inherentReceipts_eq,
            revert_inherent_receipts txs inhs bh bt inhs 0 (List.drop_zero inhs) s₃]
          exact hrevInh
        have hB : Accounts.revert s₂ txs inhs bh bt
            (txReceipts false txs.length) = some (.ok s₁) := by
          rw [txReceipts_eq,
            revert_tx_receipts_in txs inhs bh bt txs 0 (List.drop_zero txs) s₂]
          exact hrevIn
        have hA : Accounts.revert s₁ txs inhs bh bt
            (txReceipts true txs.length) = some (.ok s) := by
          rw [txReceipts_eq,
            revert_tx_receipts_out txs inhs bh bt txs 0 (List.drop_zero txs) s₁]
          exact hrevOut
        rw [revert_append_ok txs inhs bh bt _ _ s₃ s₂ hC,
          revert_append_ok txs inhs bh bt _ _ s₂ s₁ hB]
        exact hA

/-! ## Validator-selection lemmas -/

theorem pick_mem (vs : List Validator) (r : Nat) :
    pickValidator vs r = 0 ∨ ∃ v ∈ vs, pickValidator vs r = v.id := by
  induction vs generalizing r with
  | nil => exact Or.inl rfl
  | cons v vs ih =>
    unfold pickValidator
    by_cases h : r < v.balance
    · rw [if_pos h]
      exact Or.inr ⟨v, List.mem_cons_self v vs, rfl⟩
    · rw [if_neg h]
      rcases ih (r - v.balance) with h' | ⟨w, hw, h'⟩
      · exact Or.inl h'
      · exact Or.inr ⟨w, List.mem_cons_of_mem _ hw, h'⟩

theorem mem_insertById (v w : Validator) (l : List Validator)
    (h : w ∈ insertById v l) : w = v ∨ w ∈ l := by
  induction l with
  | nil =>
    simp [insertById] at h
    exact Or.inl h
  | cons x xs ih =>
    unfold insertById at h
    by_cases hle : v.id ≤ x.id
    · rw [if_pos hle] at h
      rcases List.mem_cons.mp h with h' | h'
      · exact Or.inl h'
      · exact Or.inr h'
    · rw [if_neg hle] at h
      rcases List.mem_cons.mp h with h' | h'
      · exact Or.inr (by simp [h'])
      · rcases ih h' with h'' | h''
        · exact Or.inl h''
        · exact Or.inr (List.mem_cons_of_mem _ h'')

theorem mem_sortById (w : Validator) (l : List Validator) (h : w ∈ sortById l) :
    w ∈ l := by
  induction l with
  | nil => simpa [sortById] using h
  | cons x xs ih =>
    unfold sortById at h
    rcases mem_insertById x w (sortById xs) h with h' | h'
    · simp [h']
    · exact List.mem_cons_of_mem _ (ih h')

/-! ## Claims -/

/-- C9: balance arithmetic is checked and raises exactly when out of range —
`Account::balance_sub b v` is `Err(InsufficientFunds {balance := b, needed := v})`
precisely when `v > b` and `Ok (b - v)` otherwise (so a balance never goes
below zero), and `Account::balance_add b v` is `Err(InvalidCoinValue)`
precisely when `b + v` overflows the coin range and `Ok (b + v)` otherwise. -/
theorem balance_arithmetic_checked (b v : Nat) :
    Account.balance_sub b v =
        (if v ≤ b then .ok (b - v) else .error (.InsufficientFunds b v)) ∧
      Account.balance_add b v =
        (if b + v ≤ COIN_MAX then .ok (b + v) else .error .InvalidCoinValue) := by
  constructor
  · unfold Account.balance_sub Coin.checked_sub
    by_cases h : v ≤ b <;> simp [h]
  · unfold Account.balance_add Coin.checked_add
    by_cases h : b + v ≤ COIN_MAX <;> simp [h]

/-- C10: `Account::balance` is not total over the `Account` sum type — it
panics (`unimplemented!()`, embedded as `none`) exactly on the
`StakingValidatorsStaker` variant, and on every other variant returns the
stored balance field, except `StakingStaker` where it returns
`active_stake + inactive_stake`. -/
theorem balance_partial_on_variants :
    (∀ addr, Account.balance (.StakingValidatorsStaker addr) = none) ∧
    (∀ a : Account, (∀ addr, a ≠ .StakingValidatorsStaker addr) →
      (Account.balance a).isSome = true) ∧
    (∀ acc : BasicAccount, Account.balance (.Basic acc) = some acc.balance) ∧
    (∀ acc : VestingContract, Account.balance (.Vesting acc) = some acc.balance) ∧
    (∀ acc : HashedTimeLockedContract, Account.balance (.HTLC acc) = some acc.balance) ∧
    (∀ acc : StakingContract, Account.balance (.Staking acc) = some acc.balance) ∧
    (∀ acc : Validator, Account.balance (.StakingValidator acc) = some acc.balance) ∧
    (∀ acc : Staker, Account.balance (.StakingStaker acc) =
      some (acc.active_stake + acc.inactive_stake)) := by
  refine ⟨fun addr => rfl, ?_, fun _ => rfl, fun _ => rfl, fun _ => rfl, fun _ => rfl,
    fun _ => rfl, fun _ => rfl⟩
  intro a ha
  cases a with
  | StakingValidatorsStaker addr => exact absurd rfl (ha addr)
  | Basic acc => rfl
  | Vesting acc => rfl
  | HTLC acc => rfl
  | Staking acc => rfl
  | StakingValidator acc => rfl
  | StakingStaker acc => rfl

/-- Witness for C10 at a concrete non-`StakingValidatorsStaker` account. -/
theorem balance_partial_on_variants_witness :
    (Account.balance (.Basic ⟨7⟩)).isSome = true :=
  balance_partial_on_variants.2.1 (.Basic ⟨7⟩) (fun addr h => Account.noConfusion h)

/-- C6 counterexample: a contract-creation transaction whose recipient type
is `Staking` does not succeed — `Account::create` returns
`InvalidForRecipient` for it, contradicting the claim that a `Staking`
recipient can be created this way. -/
theorem create_staking_recipient_rejected :
    Account.create [] 100 ⟨1, .Basic, 2, .Staking, 100, 0, 1, 42⟩ 1 1 =
      some (.error .InvalidForRecipient) := rfl

/-- C6 (amended): explicit contract creation dispatches on the recipient
type; it can create `Vesting` and `TimeLocked` (HTLC) accounts, while
recipient types `Basic` and `Staking` both fail with `InvalidForRecipient`. -/
theorem create_dispatch_by_recipient_type (s : AccountsTree) (bal : Nat)
    (tr : Transaction) (bh bt : Nat) :
    (tr.recipient_type = .Basic →
      Account.create s bal tr bh bt = some (.error .InvalidForRecipient)) ∧
    (tr.recipient_type = .Staking →
      Account.create s bal tr bh bt = some (.error .InvalidForRecipient)) ∧
    (tr.recipient_type = .Vesting → AccountsTree.get s tr.recipient = none →
      Account.create s bal tr bh bt =
        some (.ok (AccountsTree.put s tr.recipient
          (.Vesting ⟨bal, tr.sender, bt, 0, bal, bal⟩)))) ∧
    (tr.recipient_type = .HTLC → AccountsTree.get s tr.recipient = none →
      Account.create s bal tr bh bt =
        some (.ok (AccountsTree.put s tr.recipient
          (.HTLC ⟨bal, tr.sender, tr.recipient, 0, 0, 1, bt, bal⟩)))) := by
  refine ⟨?_, ?_, ?_, ?_⟩
  · intro h
    unfold Account.create
    rw [h]
  · intro h
    unfold Account.create
    rw [h]
  · intro h habs
    unfold Account.create
    rw [h]
    unfold VestingContract.create
    rw [habs]
  · intro h habs
    unfold Account.create
    rw [h]
    unfold HashedTimeLockedContract.create
    rw [habs]

/-- Witness for the amended C6: a concrete vesting-creation transaction on
the empty store succeeds and installs the contract. -/
theorem create_dispatch_witness :
    Account.create [] 55 ⟨1, .Basic, 2, .Vesting, 55, 0, 1, 42⟩ 1 9 =
      some (.ok [(2, Account.Vesting ⟨55, 1, 9, 0, 55, 55⟩)]) :=
  (create_dispatch_by_recipient_type [] 55 ⟨1, .Basic, 2, .Vesting, 55, 0, 1, 42⟩ 1 9).2.2.1
    rfl rfl

/-- C5: `select_validators` is deterministic in its VRF seed — two
invocations on the same staking contract and seed agree — and returns
exactly `SLOTS` slot mappings, each mapping a slot to the identifier of one
of the contract's validators (sampled from the id-ordered list, or the
default identifier when no stake covers the sample point). -/
theorem select_validators_deterministic (c : StakingContract) (seed : Nat) :
    c.select_validators seed = c.select_validators seed ∧
    (c.select_validators seed).length = SLOTS ∧
    ∀ p ∈ c.select_validators seed, p.2 = 0 ∨ ∃ v ∈ c.validators, p.2 = v.id := by
  refine ⟨rfl, ?_, ?_⟩
  · unfold StakingContract.select_validators
    simp
  · intro p hp
    unfold StakingContract.select_validators at hp
    simp only [List.mem_map, List.mem_range] at hp
    obtain ⟨i, hi, hpe⟩ := hp
    subst hpe
    rcases pick_mem (sortById c.validators) (vrfSample seed i % totalStake (sortById c.validators))
      with h | ⟨v, hv, h⟩
    · exact Or.inl h
    · exact Or.inr ⟨v, mem_sortById v c.validators hv, h⟩

/-- Witness for C5: the slot mapping of slot 0 for a concrete one-validator
contract maps to that validator's id. -/
theorem select_validators_witness :
    ((0 : Nat), (7 : Nat)).2 = 0 ∨
      ∃ v ∈ ([⟨7, 100, 0, 0⟩] : List Validator), ((0 : Nat), (7 : Nat)).2 = v.id :=
  (select_validators_deterministic ⟨0, [⟨7, 100, 0, 0⟩], []⟩ 3).2.2 (0, 7)
    (by
      unfold StakingContract.select_validators
      exact List.mem_map.mpr ⟨0, List.mem_range.mpr (by decide), by decide⟩)

/-- C1: for every well-formed ledger state (the invariant of states
reachable by valid commits) and every block's worth of transactions and
(positive-value) inherents, a successful commit followed by a revert with
the returned receipt log restores the exact prior state: the Merkle root
and the full account set — including accounts created by the commit, which
are absent again — equal their pre-commit values. -/
theorem commit_then_revert_restores_state (s s' : AccountsTree)
    (txs : List Transaction) (inhs : List Inherent) (bh bt : Nat)
    (receipts : List Receipt) (hwf : AccountsTree.Wf s)
    (hpos : ∀ i ∈ inhs, 0 < i.value)
    (hc : Accounts.commit s txs inhs bh bt = some (.ok (s', receipts))) :
    ∃ s₀, Accounts.revert s' txs inhs bh bt receipts = some (.ok s₀) ∧
      Accounts.get_root s₀ = Accounts.get_root s ∧
      ∀ a, Accounts.get s₀ a = Accounts.get s a := by
  obtain ⟨hrev, _⟩ := accounts_commit_revert s s' txs inhs bh bt receipts hwf hpos hc
  exact ⟨s, hrev, rfl, fun a => rfl⟩

/-- Witness for C1: the block body of the account test — one basic
transaction and one reward inherent — committed on a one-account ledger
and reverted with the returned receipts, restoring the initial ledger
(the account created for the recipient is absent again). -/
theorem commit_then_revert_restores_state_witness :
    ∃ s₀,
      Accounts.revert [(1, Account.Basic ⟨19990⟩), (2, Account.Basic ⟨10⟩)]
          [⟨1, .Basic, 2, .Basic, 10, 0, 1, 42⟩] [⟨.Reward, 1, 10000, 0⟩] 2 2
          [.Transaction 0 true none, .Transaction 0 false none,
            .Inherent 0 false none] = some (.ok s₀) ∧
      Accounts.get_root s₀ = Accounts.get_root [(1, Account.Basic ⟨10000⟩)] ∧
      ∀ a, Accounts.get s₀ a = Accounts.get [(1, Account.Basic ⟨10000⟩)] a :=
  commit_then_revert_restores_state [(1, Account.Basic ⟨10000⟩)]
    [(1, Account.Basic ⟨19990⟩), (2, Account.Basic ⟨10⟩)]
    [⟨1, .Basic, 2, .Basic, 10, 0, 1, 42⟩] [⟨.Reward, 1, 10000, 0⟩] 2 2
    [.Transaction 0 true none, .Transaction 0 false none, .Inherent 0 false none]
    ⟨by simp [AccountsTree.Sorted], by
      intro p hp
      simp at hp
      subst hp
      simp [Account.Admissible, COIN_MAX]⟩
    (by
      intro i hi
      simp at hi
      subst hi
      decide)
    rfl

/-- C2: ledger commit is atomic on error — whenever some apply step fails
with an `AccountError` (for example a sender with insufficient funds, alone
or as one of several transactions), commit returns that error and the
persisted ledger (the caller discards the storage transaction) is exactly
the pre-commit ledger: no account is modified or created and the root hash
is unchanged. -/
theorem commit_error_is_atomic (s : AccountsTree) (txs : List Transaction)
    (inhs : List Inherent) (bh bt : Nat) (e : AccountError)
    (hc : Accounts.commit s txs inhs bh bt = some (.error e)) :
    Accounts.commit_and_persist s txs inhs bh bt = s ∧
    Accounts.get_root (Accounts.commit_and_persist s txs inhs bh bt) =
      Accounts.get_root s ∧
    ∀ a, Accounts.get (Accounts.commit_and_persist s txs inhs bh bt) a =
      Accounts.get s a := by
  unfold Accounts.commit_and_persist
  rw [hc]
  exact ⟨rfl, rfl, fun a => rfl⟩

/-- Witness for C2: the sufficient-funds test scenario — a sender holding
10000 coins, two transactions spending 5010 and 5020 — where the second
apply step fails with `InsufficientFunds`, and the persisted ledger is the
pre-commit ledger. -/
theorem commit_error_is_atomic_witness :
    Accounts.commit_and_persist [(1, Account.Basic ⟨10000⟩)]
        [⟨1, .Basic, 2, .Basic, 5010, 0, 1, 42⟩, ⟨1, .Basic, 2, .Basic, 5020, 0, 1, 42⟩]
        [⟨.Reward, 1, 10000, 0⟩] 2 2 = [(1, Account.Basic ⟨10000⟩)] ∧
    Accounts.get_root (Accounts.commit_and_persist [(1, Account.Basic ⟨10000⟩)]
        [⟨1, .Basic, 2, .Basic, 5010, 0, 1, 42⟩, ⟨1, .Basic, 2, .Basic, 5020, 0, 1, 42⟩]
        [⟨.Reward, 1, 10000, 0⟩] 2 2) =
      Accounts.get_root [(1, Account.Basic ⟨10000⟩)] ∧
    ∀ a, Accounts.get (Accounts.commit_and_persist [(1, Account.Basic ⟨10000⟩)]
        [⟨1, .Basic, 2, .Basic, 5010, 0, 1, 42⟩, ⟨1, .Basic, 2, .Basic, 5020, 0, 1, 42⟩]
        [⟨.Reward, 1, 10000, 0⟩] 2 2) a =
      Accounts.get [(1, Account.Basic ⟨10000⟩)] a :=
  commit_error_is_atomic [(1, Account.Basic ⟨10000⟩)]
    [⟨1, .Basic, 2, .Basic, 5010, 0, 1, 42⟩, ⟨1, .Basic, 2, .Basic, 5020, 0, 1, 42⟩]
    [⟨.Reward, 1, 10000, 0⟩] 2 2 (.InsufficientFunds 4990 5020) rfl

/-- C7: a basic account is created by the first inherent targeting a
previously non-existent address — committing a reward inherent whose
target holds no account succeeds (it does not fail with
`NonExistentAddress`) and leaves a basic account there whose balance is the
reward value. -/
theorem reward_inherent_creates_basic_account (s : AccountsTree) (rw : Inherent)
    (bh bt : Nat) (hwf : AccountsTree.Wf s)
    (habs : AccountsTree.get s rw.target = none)
    (hty : rw.ty = .Reward) (hv : 0 < rw.value) (hmax : rw.value ≤ COIN_MAX) :
    Accounts.commit s [] [rw] bh bt =
        some (.ok (AccountsTree.put s rw.target (.Basic ⟨rw.value⟩),
          [.Inherent 0 false none])) ∧
      Accounts.get (AccountsTree.put s rw.target (.Basic ⟨rw.value⟩)) rw.target =
        some (.Basic ⟨rw.value⟩) := by
  have hbasic : BasicAccount.commit_inherent s rw =
      .ok (AccountsTree.put s rw.target (.Basic ⟨rw.value⟩)) := by
    unfold BasicAccount.commit_inherent
    simp only [hty, habs]
    rw [depositAt_eq, if_pos (by omega : 0 + rw.value ≤ COIN_MAX),
      if_neg (by omega : ¬ 0 + rw.value = 0), Nat.zero_add]
  have hstep : Account.commit_inherent s rw bh bt =
      some (.ok (AccountsTree.put s rw.target (.Basic ⟨rw.value⟩))) := by
    unfold Account.commit_inherent
    simp only [habs]
    rw [if_pos hty, hbasic]
  refine ⟨?_, get_put_self s rw.target _⟩
  unfold Accounts.commit
  simp only [commitList, Accounts.commit_step_inherent, hstep, txReceipts,
    inherentReceipts, List.range_zero, List.map_nil, List.nil_append]
  rfl

/-- Witness for C7: a 10000-coin reward to a fresh address on the empty
ledger succeeds and creates the basic account, matching the first commit of
the account test. -/
theorem reward_inherent_creates_basic_account_witness :
    Accounts.commit [] [] [⟨.Reward, 1, 10000, 0⟩] 1 1 =
        some (.ok ([(1, Account.Basic ⟨10000⟩)], [.Inherent 0 false none])) ∧
      Accounts.get [(1, Account.Basic ⟨10000⟩)] 1 = some (.Basic ⟨10000⟩) :=
  reward_inherent_creates_basic_account [] ⟨.Reward, 1, 10000, 0⟩ 1 1
    ⟨List.Pairwise.nil, fun p hp => absurd hp (List.not_mem_nil p)⟩
    rfl rfl (by decide) (by decide)

theorem microheader_hash_ne_of_timestamp_ne (h : MicroHeader) (t2 : Nat)
    (hne : t2 ≠ h.timestamp) :
    MicroHeader.hash { h with timestamp := t2 } ≠ MicroHeader.hash h := by
  unfold MicroHeader.hash
  intro heq
  simp only [Nat.pair_eq_pair] at heq
  exact hne heq.2.2.2.1

/-- C3: pushing a well-formed micro block whose parent hash is the current
head's hash, with view number 0 (no view change) and an empty transaction
list, returns `Extended`, and the chain's block number afterwards is the
previous block number plus exactly one. -/
theorem push_micro_extends (c : Blockchain) (b : MicroBlock)
    (j : MicroJustification) (body : MicroBody)
    (hj : b.justification = some j) (hb : b.body = some body)
    (hparent : b.header.parent_hash = c.head_hash)
    (hview : b.header.view_number = 0)
    (hnum : b.header.block_number = c.block_number + 1)
    (htxs : body.transactions = [])
    (hfps : body.fork_proofs = [])
    (hroot : b.header.body_root = body.hash)
    (hsig : j.signature = sign c.slot_key b.header.hash) :
    ∃ c', Blockchain.push c b = some (.ok (.Extended, c')) ∧
      c'.block_number = c.block_number + 1 := by
  unfold Blockchain.push
  simp only [hj, hb]
  rw [if_neg (by simp [hparent]), if_neg (by simp [hnum]), if_neg (by simp [hroot]),
    if_neg (by simp [verify_sig, hsig]),
    if_neg (by simp [Blockchain.view_change_ok, hview]),
    if_neg (by simp [hfps])]
  rw [htxs]
  simp only [Accounts.commit, commitList, txReceipts, inherentReceipts,
    List.range_zero, List.map_nil, List.nil_append, List.length_nil]
  refine ⟨_, rfl, ?_⟩
  simp [hnum]

/-- Witness for C3: an empty micro block on a concrete one-validator chain
state extends the head to block number 1. -/
theorem push_micro_extends_witness :
    ∃ c', Blockchain.push ⟨0, 0, 7, 3, 5, [1], [], []⟩
        ⟨⟨1, 1, 0, 2, 7, 3, 0, 0, MicroBody.hash ⟨[], []⟩, 0⟩,
          some ⟨sign 5 (MicroHeader.hash
            ⟨1, 1, 0, 2, 7, 3, 0, 0, MicroBody.hash ⟨[], []⟩, 0⟩), none⟩,
          some ⟨[], []⟩⟩ =
      some (.ok (.Extended, c')) ∧ c'.block_number = 0 + 1 :=
  push_micro_extends ⟨0, 0, 7, 3, 5, [1], [], []⟩ _ _ _ rfl rfl rfl rfl rfl rfl rfl
    rfl rfl

/-- C4: a micro block carrying a view-change proof whose aggregate was
built over a seed different from the actual head seed is rejected with
`InvalidViewChangeProof`, even though the block's own producer
justification is valid; rebuilding the same view change over the correct
head seed makes the same push succeed with `Extended`. -/
theorem push_view_change_binds_head_seed (c : Blockchain) (b : MicroBlock)
    (j : MicroJustification) (body : MicroBody) (p : ViewChangeProof)
    (hj : b.justification = some j) (hb : b.body = some body)
    (hp : j.view_change_proof = some p)
    (hparent : b.header.parent_hash = c.head_hash)
    (hnum : b.header.block_number = c.block_number + 1)
    (hroot : b.header.body_root = body.hash)
    (hsig : j.signature = sign c.slot_key b.header.hash)
    (hviewpos : b.header.view_number ≠ 0)
    (hpbn : p.block_number = b.header.block_number)
    (hpnv : p.new_view_number = b.header.view_number)
    (hw : TWO_THIRD_SLOTS ≤ p.weight)
    (hseed : p.prev_seed ≠ c.head_seed)
    (htxs : body.transactions = []) (hfps : body.fork_proofs = []) :
    Blockchain.push c b = some (.error (.InvalidBlock .InvalidViewChangeProof)) ∧
    ∃ c', Blockchain.push c
        (⟨b.header, some ⟨j.signature,
          some ⟨p.block_number, p.new_view_number, c.head_seed, p.weight⟩⟩,
          b.body⟩ : MicroBlock) =
      some (.ok (.Extended, c')) := by
  constructor
  · unfold Blockchain.push
    simp only [hj, hb]
    rw [if_neg (by simp [hparent]), if_neg (by simp [hnum]), if_neg (by simp [hroot]),
      if_neg (by simp [verify_sig, hsig]),
      if_pos (by simp [Blockchain.view_change_ok, hviewpos, hp,
        ViewChangeProof.verify, hseed])]
  · unfold Blockchain.push
    have hj' : (⟨b.header, some ⟨j.signature,
        some ⟨p.block_number, p.new_view_number, c.head_seed, p.weight⟩⟩,
        b.body⟩ : MicroBlock).justification =
        some ⟨j.signature,
          some ⟨p.block_number, p.new_view_number, c.head_seed, p.weight⟩⟩ :=
      rfl
    have hb' : (⟨b.header, some ⟨j.signature,
        some ⟨p.block_number, p.new_view_number, c.head_seed, p.weight⟩⟩,
        b.body⟩ : MicroBlock).body = body := hb
    have hh' : (⟨b.header, some ⟨j.signature,
        some ⟨p.block_number, p.new_view_number, c.head_seed, p.weight⟩⟩,
        b.body⟩ : MicroBlock).header = b.header :=
      rfl
    simp only [hj', hb', hh', hb]
    rw [if_neg (by simp [hparent]), if_neg (by simp [hnum]), if_neg (by simp [hroot]),
      if_neg (by simp [verify_sig, hsig]),
      if_neg (by simp [Blockchain.view_change_ok, hviewpos,
        ViewChangeProof.verify, hpbn, hpnv, hw]),
      if_neg (by simp [hfps])]
    rw [htxs]
    simp only [Accounts.commit, commitList, txReceipts, inherentReceipts,
      List.range_zero, List.map_nil, List.nil_append, List.length_nil]
    exact ⟨_, rfl⟩

/-- Witness for C4: a concrete view-1 block whose proof was built over seed
99 while the head seed is 3 is rejected, and the same block with the proof
rebuilt over seed 3 extends the chain. -/
theorem push_view_change_binds_head_seed_witness :
    Blockchain.push ⟨0, 0, 7, 3, 5, [1], [], []⟩
        ⟨⟨1, 1, 1, 2, 7, 3, 0, 0, MicroBody.hash ⟨[], []⟩, 0⟩,
          some ⟨sign 5 (MicroHeader.hash
            ⟨1, 1, 1, 2, 7, 3, 0, 0, MicroBody.hash ⟨[], []⟩, 0⟩),
            some ⟨1, 1, 99, 400⟩⟩,
          some ⟨[], []⟩⟩ =
      some (.error (.InvalidBlock .InvalidViewChangeProof)) ∧
    ∃ c', Blockchain.push ⟨0, 0, 7, 3, 5, [1], [], []⟩
        ⟨⟨1, 1, 1, 2, 7, 3, 0, 0, MicroBody.hash ⟨[], []⟩, 0⟩,
          some ⟨sign 5 (MicroHeader.hash
            ⟨1, 1, 1, 2, 7, 3, 0, 0, MicroBody.hash ⟨[], []⟩, 0⟩),
            some ⟨1, 1, 3, 400⟩⟩,
          some ⟨[], []⟩⟩ =
      some (.ok (.Extended, c')) :=
  push_view_change_binds_head_seed ⟨0, 0, 7, 3, 5, [1], [], []⟩
    ⟨⟨1, 1, 1, 2, 7, 3, 0, 0, MicroBody.hash ⟨[], []⟩, 0⟩,
      some ⟨sign 5 (MicroHeader.hash
        ⟨1, 1, 1, 2, 7, 3, 0, 0, MicroBody.hash ⟨[], []⟩, 0⟩),
        some ⟨1, 1, 99, 400⟩⟩,
      some ⟨[], []⟩⟩
    ⟨sign 5 (MicroHeader.hash ⟨1, 1, 1, 2, 7, 3, 0, 0, MicroBody.hash ⟨[], []⟩, 0⟩),
      some ⟨1, 1, 99, 400⟩⟩
    ⟨[], []⟩
    ⟨1, 1, 99, 400⟩
    rfl rfl rfl rfl rfl rfl rfl (by decide) rfl rfl (by decide) (by decide) rfl rfl

/-- C8: two micro-block headers identical except for the timestamp (hence
with distinct hashes), both validly signed by the same slot key, form one
valid fork proof; a block carrying that proof is accepted with `Extended`,
schedules exactly one penalization inherent for the equivocation — never
two — and does not eject the producer (the validator set is unchanged). -/
theorem fork_proof_one_penalty (c : Blockchain) (b : MicroBlock)
    (j : MicroJustification) (body : MicroBody) (h1 : MicroHeader) (t2 : Nat)
    (fp : ForkProof)
    (hfp : fp = ⟨h1, { h1 with timestamp := t2 }, sign c.slot_key h1.hash,
      sign c.slot_key (MicroHeader.hash { h1 with timestamp := t2 }), c.head_seed⟩)
    (hts : t2 ≠ h1.timestamp)
    (hj : b.justification = some j) (hb : b.body = some body)
    (hparent : b.header.parent_hash = c.head_hash)
    (hview : b.header.view_number = 0)
    (hnum : b.header.block_number = c.block_number + 1)
    (htxs : body.transactions = [])
    (hfps : body.fork_proofs = [fp])
    (hroot : b.header.body_root = body.hash)
    (hsig : j.signature = sign c.slot_key b.header.hash) :
    fp.verify c.slot_key = true ∧
    ∃ c', Blockchain.push c b = some (.ok (.Extended, c')) ∧
      c'.pending_penalties = c.pending_penalties ++ [fp.penalty_inherent] ∧
      c'.validators = c.validators := by
  have hvf : fp.verify c.slot_key = true := by
    subst hfp
    have hne := microheader_hash_ne_of_timestamp_ne h1 t2 hts
    unfold ForkProof.verify
    simp [verify_sig, bne_iff_ne]
    exact fun hh => hne hh.symm
  refine ⟨hvf, ?_⟩
  unfold Blockchain.push
  simp only [hj, hb]
  rw [if_neg (by simp [hparent]), if_neg (by simp [hnum]), if_neg (by simp [hroot]),
    if_neg (by simp [verify_sig, hsig]),
    if_neg (by simp [Blockchain.view_change_ok, hview]),
    if_neg (by simp [hfps, hvf])]
  rw [htxs]
  simp only [Accounts.commit, commitList, txReceipts, inherentReceipts,
    List.range_zero, List.map_nil, List.nil_append, List.length_nil]
  refine ⟨_, rfl, ?_, rfl⟩
  simp [hfps]

/-- Witness for C8: a concrete fork proof from two headers differing only
in timestamp is valid, the block carrying it is accepted, and exactly one
penalization inherent is scheduled while the validator set is unchanged. -/
theorem fork_proof_one_penalty_witness :
    ForkProof.verify
        ⟨⟨1, 0, 0, 9, 7, 3, 0, 0, 0, 0⟩, ⟨1, 0, 0, 10, 7, 3, 0, 0, 0, 0⟩,
          sign 5 (MicroHeader.hash ⟨1, 0, 0, 9, 7, 3, 0, 0, 0, 0⟩),
          sign 5 (MicroHeader.hash ⟨1, 0, 0, 10, 7, 3, 0, 0, 0, 0⟩), 3⟩ 5 = true ∧
    ∃ c', Blockchain.push ⟨0, 0, 7, 3, 5, [1], [], []⟩
        ⟨⟨1, 1, 0, 2, 7, 3, 0, 0,
          MicroBody.hash ⟨[⟨⟨1, 0, 0, 9, 7, 3, 0, 0, 0, 0⟩,
            ⟨1, 0, 0, 10, 7, 3, 0, 0, 0, 0⟩,
            sign 5 (MicroHeader.hash ⟨1, 0, 0, 9, 7, 3, 0, 0, 0, 0⟩),
            sign 5 (MicroHeader.hash ⟨1, 0, 0, 10, 7, 3, 0, 0, 0, 0⟩), 3⟩], []⟩, 0⟩,
          some ⟨sign 5 (MicroHeader.hash ⟨1, 1, 0, 2, 7, 3, 0, 0,
            MicroBody.hash ⟨[⟨⟨1, 0, 0, 9, 7, 3, 0, 0, 0, 0⟩,
              ⟨1, 0, 0, 10, 7, 3, 0, 0, 0, 0⟩,
              sign 5 (MicroHeader.hash ⟨1, 0, 0, 9, 7, 3, 0, 0, 0, 0⟩),
              sign 5 (MicroHeader.hash ⟨1, 0, 0, 10, 7, 3, 0, 0, 0, 0⟩), 3⟩], []⟩, 0⟩),
            none⟩,
          some ⟨[⟨⟨1, 0, 0, 9, 7, 3, 0, 0, 0, 0⟩, ⟨1, 0, 0, 10, 7, 3, 0, 0, 0, 0⟩,
            sign 5 (MicroHeader.hash ⟨1, 0, 0, 9, 7, 3, 0, 0, 0, 0⟩),
            sign 5 (MicroHeader.hash ⟨1, 0, 0, 10, 7, 3, 0, 0, 0, 0⟩), 3⟩], []⟩⟩ =
      some (.ok (.Extended, c')) ∧
      c'.pending_penalties = [] ++ [ForkProof.penalty_inherent
        ⟨⟨1, 0, 0, 9, 7, 3, 0, 0, 0, 0⟩, ⟨1, 0, 0, 10, 7, 3, 0, 0, 0, 0⟩,
          sign 5 (MicroHeader.hash ⟨1, 0, 0, 9, 7, 3, 0, 0, 0, 0⟩),
          sign 5 (MicroHeader.hash ⟨1, 0, 0, 10, 7, 3, 0, 0, 0, 0⟩), 3⟩] ∧
      c'.validators = [1] :=
  fork_proof_one_penalty ⟨0, 0, 7, 3, 5, [1], [], []⟩ _ _ _
    ⟨1, 0, 0, 9, 7, 3, 0, 0, 0, 0⟩ 10 _ rfl (by decide) rfl rfl rfl rfl rfl rfl rfl
    rfl rfl

end Albatross
